import Mathlib

/-!
# A shallow embedding of the `cli` package (`cli.go`, `command.go`)

Go strings are byte sequences, Go `int` is the 64-bit two's-complement integer,
methods with a pointer receiver become functions that return the updated
receiver, and a handler is a function on an explicit world state.

The embedding covers the command registry (`CommandOptions.Append`,
`CommandOptions.AsMap`), registration and dispatch (`App.Add`, `App.AddOption`,
`App.Run`) and the help renderer (`App.ShowHelp`, `App.showCmdHelp`,
`App.longestCmdIdx`, `App.computeMargin`, `App.reshapeText`,
`App.centerPadText`, `padSpaces`, `padStars`, `padChar`), together with the
parts of Go's `strings`, `unicode/utf8`, `unicode`, `fmt` and `errors` packages
these functions call.
-/

namespace Cli

/-! ## Go values: bytes, strings, `int` -/

/-- A Go `byte`. -/
abbrev Byte := Fin 256

/-- A Go `string`: an immutable sequence of bytes (not necessarily valid UTF-8). -/
abbrev GoString := List Byte

/-- Go's builtin `len` on a string, as an `int`; a Go string has at most `maxInt` bytes,
    so the length itself never wraps around. -/
def len (s : GoString) : Int := (s.length : Int)

/-- The value a 64-bit two's-complement `int` holds after an arithmetic result `x`:
    Go's signed integer arithmetic wraps around on overflow. -/
def wrapInt (x : Int) : Int :=
  (x + 9223372036854775808) % 18446744073709551616 - 9223372036854775808

/-- Go's `x + y` on `int`. -/
def iadd (x y : Int) : Int := wrapInt (x + y)

/-- Go's `x - y` on `int`. -/
def isub (x y : Int) : Int := wrapInt (x - y)

/-- Go's `x / y` on `int` for a positive constant divisor: truncation toward zero. -/
def idiv (x y : Int) : Int := wrapInt (Int.tdiv x y)

/-- The smallest `int`. -/
def minInt : Int := -9223372036854775808

/-- The largest `int`. -/
def maxInt : Int := 9223372036854775807

/-! ## `unicode/utf8` -/

/-- The constant `utf8.RuneSelf`: bytes below it are single-byte runes. -/
def RuneSelf : Nat := 0x80

/-- The constant `utf8.RuneError`, U+FFFD. -/
def RuneError : Nat := 0xFFFD

/-- The constant `utf8.MaxRune`, U+10FFFF. -/
def MaxRune : Nat := 0x10FFFF

/-- A continuation byte: between `locb = 0x80` and `hicb = 0xBF`. -/
def isCont (b : Byte) : Bool := 0x80 ≤ b.val && b.val ≤ 0xBF

/-- Go's `utf8.DecodeRuneInString` (also the decoding step of `for _, r := range s`):
    the first rune of `s` and its width in bytes. An empty string gives
    `(RuneError, 0)`; an invalid or truncated encoding gives `(RuneError, 1)`.
    The `first` and `acceptRanges` tables are written out as byte ranges. -/
def DecodeRuneInString (s : GoString) : Nat × Nat :=
  match s with
  | [] => (RuneError, 0)
  | s0 :: rest =>
    if s0.val < 0x80 then (s0.val, 1)
    else if s0.val < 0xC2 then (RuneError, 1)
    else if s0.val < 0xE0 then
      match rest with
      | s1 :: _ =>
        if isCont s1 then (s0.val % 32 * 64 + s1.val % 64, 2) else (RuneError, 1)
      | _ => (RuneError, 1)
    else if s0.val < 0xF0 then
      match rest with
      | s1 :: s2 :: _ =>
        let lo := if s0.val = 0xE0 then 0xA0 else 0x80
        let hi := if s0.val = 0xED then 0x9F else 0xBF
        if s1.val < lo || hi < s1.val then (RuneError, 1)
        else if !isCont s2 then (RuneError, 1)
        else (s0.val % 16 * 4096 + s1.val % 64 * 64 + s2.val % 64, 3)
      | _ => (RuneError, 1)
    else if s0.val < 0xF5 then
      match rest with
      | s1 :: s2 :: s3 :: _ =>
        let lo := if s0.val = 0xF0 then 0x90 else 0x80
        let hi := if s0.val = 0xF4 then 0x8F else 0xBF
        if s1.val < lo || hi < s1.val then (RuneError, 1)
        else if !isCont s2 then (RuneError, 1)
        else if !isCont s3 then (RuneError, 1)
        else (s0.val % 8 * 262144 + s1.val % 64 * 4096 + s2.val % 64 * 64 + s3.val % 64, 4)
      | _ => (RuneError, 1)
    else (RuneError, 1)

/-- Go's `utf8.AppendRune(nil, r)` (also the conversion `string(r)` of a rune):
    the UTF-8 encoding of `r`; surrogates and values above `MaxRune` are encoded
    as `RuneError`. -/
def EncodeRune (r : Nat) : GoString :=
  if r ≤ 0x7F then [Fin.ofNat r]
  else if r ≤ 0x7FF then [Fin.ofNat (0xC0 + r / 64), Fin.ofNat (0x80 + r % 64)]
  else if MaxRune < r ∨ (0xD800 ≤ r ∧ r ≤ 0xDFFF) then [0xEF, 0xBF, 0xBD]
  else if r ≤ 0xFFFF then
    [Fin.ofNat (0xE0 + r / 4096), Fin.ofNat (0x80 + r / 64 % 64), Fin.ofNat (0x80 + r % 64)]
  else
    [Fin.ofNat (0xF0 + r / 262144), Fin.ofNat (0x80 + r / 4096 % 64),
     Fin.ofNat (0x80 + r / 64 % 64), Fin.ofNat (0x80 + r % 64)]

/-- The runes a `for _, r := range s` loop visits, in order. The first argument
    bounds the number of iterations; every iteration consumes at least one byte,
    so `s.length` iterations always reach the end of `s`. -/
def runesAux : Nat → GoString → List Nat
  | 0, _ => []
  | _ + 1, [] => []
  | n + 1, b :: s =>
    (DecodeRuneInString (b :: s)).1 :: runesAux n ((b :: s).drop (DecodeRuneInString (b :: s)).2)

/-- The runes of `s`, as `for _, r := range s` yields them. -/
def runes (s : GoString) : List Nat := runesAux s.length s

/-- A Go string literal: the UTF-8 bytes of the characters of `s`. -/
def str (s : String) : GoString := s.toList.flatMap fun c => EncodeRune c.toNat

/-! ## `unicode`: case mapping and simple folding -/

/-- The functions of Go's `unicode` package on runes above `unicode.MaxASCII`, which
    Go computes from the Unicode tables `CaseRanges` and `caseOrbit`. The tables are
    data of the Go distribution, not of this package, so they are taken as a
    parameter; on ASCII runes Go does not consult them (see `SimpleFold`,
    `unicodeToLower`, `unicodeToUpper`). -/
structure Unicode where
  /-- `unicode.SimpleFold` on a rune above `MaxASCII`. -/
  SimpleFold : Nat → Nat
  /-- `unicode.ToLower` on a rune above `MaxASCII`. -/
  ToLower : Nat → Nat
  /-- `unicode.ToUpper` on a rune above `MaxASCII`. -/
  ToUpper : Nat → Nat

/-- Go's table `asciiFold`: an upper-case letter goes to its lower-case letter, a
    lower-case letter to its upper-case letter, except `k`, which goes to the Kelvin
    sign U+212A, and `s`, which goes to the long s U+017F; every other ASCII rune is
    fixed. -/
def asciiFold (r : Nat) : Nat :=
  if 0x41 ≤ r ∧ r ≤ 0x5A then r + 0x20
  else if r = 0x6B then 0x212A
  else if r = 0x73 then 0x17F
  else if 0x61 ≤ r ∧ r ≤ 0x7A then r - 0x20
  else r

/-- Go's `unicode.SimpleFold`: ASCII runes are looked up in `asciiFold`, the others in
    the Unicode tables. -/
def SimpleFold (U : Unicode) (r : Nat) : Nat :=
  if r < 0x80 then asciiFold r else U.SimpleFold r

/-- Go's `unicode.ToLower`: the ASCII case is decided without the tables. -/
def unicodeToLower (U : Unicode) (r : Nat) : Nat :=
  if r ≤ 0x7F then (if 0x41 ≤ r ∧ r ≤ 0x5A then r + 0x20 else r) else U.ToLower r

/-- Go's `unicode.ToUpper`: the ASCII case is decided without the tables. -/
def unicodeToUpper (U : Unicode) (r : Nat) : Nat :=
  if r ≤ 0x7F then (if 0x61 ≤ r ∧ r ≤ 0x7A then r - 0x20 else r) else U.ToUpper r

/-- The rows of Go's Unicode tables for the runes U+0130, U+0131, U+017F and U+212A:
    `caseOrbit` holds `(0x0130, 0x0130)`, `(0x0131, 0x0131)`, `(0x017F, 0x0053)` and
    `(0x212A, 0x004B)`; `CaseRanges` maps U+0130 to the lower-case U+0069, U+0131 and
    U+017F to the upper-case U+0049 and U+0053, and U+212A to the lower-case U+006B.
    Every other rune is left fixed: this instance agrees with Go on the strings whose
    non-ASCII runes are among these four, and is used for concrete evaluations only. -/
def dotlessAndKelvin : Unicode where
  SimpleFold r := if r = 0x17F then 0x53 else if r = 0x212A then 0x4B else r
  ToLower r := if r = 0x130 then 0x69 else if r = 0x212A then 0x6B else r
  ToUpper r := if r = 0x131 then 0x49 else if r = 0x17F then 0x53 else r

/-! ## `strings` -/

/-- The orbit search of `strings.EqualFold`:
    `for r != sr && r < tr { r = unicode.SimpleFold(r) }`, started at `r` and run for at
    most `fuel + 1` tests of the loop condition. The result is the value of `r` when the
    loop exits, or `none` when the bound is used up. -/
def foldLoop (U : Unicode) (sr tr : Nat) : Nat → Nat → Option Nat
  | 0, r => if r ≠ sr ∧ r < tr then none else some r
  | fuel + 1, r => if r ≠ sr ∧ r < tr then foldLoop U sr tr fuel (SimpleFold U r) else some r

/-- The comparison of one rune `sr` of `s` with one rune `tr` of `t` in the Unicode part
    of `strings.EqualFold`: equal runes match; otherwise the smaller one is folded
    upwards until it reaches or passes the larger one. While the loop runs, `r` stays
    below `tr` and differs from `sr`, so a run of more than `tr` iterations repeats a
    value and never exits; the bound `tr` therefore cuts off only runs on which Go's loop
    does not terminate, and those are answered `false`. -/
def foldEq (U : Unicode) (sr tr : Nat) : Bool :=
  if tr = sr then true
  else
    let lo := if tr < sr then tr else sr
    let hi := if tr < sr then sr else tr
    if hi < RuneSelf then 0x41 ≤ lo && lo ≤ 0x5A && hi = lo + 0x20
    else foldLoop U lo hi hi (SimpleFold U lo) = some hi

/-- The part of `strings.EqualFold` after the label `hasUnicode`: the runes of `s` are
    compared one by one with the runes decoded from the front of `t`. The first
    argument bounds the number of iterations by the length of `s`. -/
def equalFoldUnicode (U : Unicode) : Nat → GoString → GoString → Bool
  | 0, _, t => t.isEmpty
  | _ + 1, [], t => t.isEmpty
  | n + 1, b :: s, t =>
    match t with
    | [] => false
    | t0 :: trest =>
      let sr := DecodeRuneInString (b :: s)
      let tr := if t0.val < RuneSelf then (t0.val, 1) else DecodeRuneInString (t0 :: trest)
      if foldEq U sr.1 tr.1 then
        equalFoldUnicode U n ((b :: s).drop sr.2) ((t0 :: trest).drop tr.2)
      else false

/-- Go's `strings.EqualFold(s, t)`: the byte-wise fast path runs while both strings
    show ASCII bytes, and hands the rest to the rune-wise comparison at the first
    non-ASCII byte; when one string is used up the result is `len(s) == len(t)`. -/
def EqualFold (U : Unicode) : GoString → GoString → Bool
  | sr :: s, tr :: t =>
    if RuneSelf ≤ sr.val ∨ RuneSelf ≤ tr.val then
      equalFoldUnicode U (sr :: s).length (sr :: s) (tr :: t)
    else if tr = sr then EqualFold U s t
    else
      let lo := if tr.val < sr.val then tr.val else sr.val
      let hi := if tr.val < sr.val then sr.val else tr.val
      if 0x41 ≤ lo ∧ lo ≤ 0x5A ∧ hi = lo + 0x20 then EqualFold U s t else false
  | [], t => t.length == 0
  | s, [] => s.length == 0

/-- Go's `strings.Map(mapping, s)` for a mapping that returns no negative rune: every
    rune of `s` is replaced by the encoding of its image, an invalid byte counting as
    `RuneError`. (Go returns `s` itself when no rune changes; the encoding of an
    unchanged valid rune is its original bytes.) -/
def Map (mapping : Nat → Nat) (s : GoString) : GoString :=
  (runes s).flatMap fun c => EncodeRune (mapping c)

/-- Go's `strings.ToLower`: an ASCII-only string is mapped byte by byte, any other
    string through `Map(unicode.ToLower, s)`. -/
def ToLower (U : Unicode) (s : GoString) : GoString :=
  if s.all (fun c => c.val < RuneSelf) then
    s.map fun c => if 0x41 ≤ c.val ∧ c.val ≤ 0x5A then c + 0x20 else c
  else Map (unicodeToLower U) s

/-- Go's `strings.ToUpper`: an ASCII-only string is mapped byte by byte, any other
    string through `Map(unicode.ToUpper, s)`. -/
def ToUpper (U : Unicode) (s : GoString) : GoString :=
  if s.all (fun c => c.val < RuneSelf) then
    s.map fun c => if 0x61 ≤ c.val ∧ c.val ≤ 0x7A then c - 0x20 else c
  else Map (unicodeToUpper U) s

/-- Go's `strings.Trim(s, " ")`: `s` without its leading and trailing spaces. -/
def Trim (s : GoString) : GoString :=
  ((s.dropWhile (· == 0x20)).reverse.dropWhile (· == 0x20)).reverse

/-- Go's `strings.Split(s, " ")`: the pieces of `s` between its spaces, one more piece
    than `s` has spaces; the empty string gives one empty piece. -/
def Split : GoString → List GoString
  | [] => [[]]
  | b :: s =>
    if b = 0x20 then [] :: Split s
    else
      match Split s with
      | [] => [[b]]
      | w :: ws => (b :: w) :: ws

/-- Go's `strings.Join(elems, sep)`. -/
def Join : List GoString → GoString → GoString
  | [], _ => []
  | [a], _ => a
  | a :: b :: rest, sep => a ++ sep ++ Join (b :: rest) sep

/-! ## `command.go` -/

/-- The Go type `OptionFunc`, `func(args ...interface{}) error`, possibly nil. A
    handler receives the arguments and the state of the world outside the `App` and
    returns the new state of the world together with its `error` result (`none` is
    Go's nil error). The type of the arguments `α`, of the world `σ` and of the
    handlers' error values `ε` are left open. -/
abbrev OptionFunc (σ α ε : Type) : Type := Option (List α → σ → σ × Option ε)

/-- The Go struct `CommandOption`. -/
structure CommandOption (σ α ε : Type) where
  /-- The command the option is associated with. -/
  Cmd : GoString
  /-- The help text of the command. -/
  Description : GoString
  /-- The handler of the command. -/
  Func : OptionFunc σ α ε

/-- The Go type `CommandOptions`, a slice of `CommandOption`; the nil slice and the
    empty slice are both the empty list. -/
abbrev CommandOptions (σ α ε : Type) : Type := List (CommandOption σ α ε)

/-- A Go `map[string]V`, kept as a list of bindings with pairwise different keys (the
    order of the list has no meaning: Go maps are unordered). -/
abbrev GoMap (V : Type) : Type := List (GoString × V)

/-- The assignment `m[k] = v`: a binding of `k` already in `m` is replaced. -/
def GoMap.set {V : Type} (m : GoMap V) (k : GoString) (v : V) : GoMap V :=
  (k, v) :: m.filter fun p => !(p.1 == k)

/-- The lookup `m[k]` (`none` when `k` is not a key of `m`). -/
def GoMap.get {V : Type} (m : GoMap V) (k : GoString) : Option V :=
  (m.find? fun p => p.1 == k).map Prod.snd

/-- The keys of `m`. -/
def GoMap.keys {V : Type} (m : GoMap V) : List GoString := m.map Prod.fst

/-- The loop of `AsMap`: `for _, option := range *co { _map[option.Cmd] = option }`. -/
def asMapLoop {σ α ε : Type} :
    List (CommandOption σ α ε) → GoMap (CommandOption σ α ε) → GoMap (CommandOption σ α ε)
  | [], _map => _map
  | option :: rest, _map => asMapLoop rest (_map.set option.Cmd option)

/-- The method `(*CommandOptions).AsMap` on the address of the registry `co`. -/
def CommandOptions.AsMap {σ α ε : Type} (co : CommandOptions σ α ε) :
    GoMap (CommandOption σ α ε) :=
  asMapLoop co []

/-- The method `(*CommandOptions).Append` on the address of the registry `co`; the
    result is the registry stored back through the pointer. The receiver is the
    address of an existing registry (`App.Add` and `App.AddOption` pass `&a.Options`),
    so of the test `co == nil || len(*co) == 0` only the second part can hold; the
    capacity hint of `make(CommandOptions, 0, 5)` is not observable. -/
def CommandOptions.Append {σ α ε : Type} (co : CommandOptions σ α ε)
    (opts : List (CommandOption σ α ε)) : CommandOptions σ α ε :=
  (if co.length = 0 then [] else co) ++ opts

/-! ## `cli.go` -/

/-- The Go struct `App`. -/
structure App (σ α ε : Type) where
  /-- The name of the application. -/
  Name : GoString
  /-- The description of the application. -/
  Description : GoString
  /-- The width of the terminal, in columns. -/
  MaxTerminalWidth : Int
  /-- The cached margin; 0 stands for "not computed yet". -/
  margin : Int
  /-- The cached delimiter. -/
  delimiter : GoString
  /-- The registry of commands. -/
  Options : CommandOptions σ α ε

/-- A Go `error` value that is not nil. `errors.New` and `fmt.Errorf` return a value
    distinct from every other error value, even one with the same text, so the errors
    this package creates are kept apart from the errors a handler returns. -/
inductive GoError (ε : Type) where
  /-- An error created in this package by `errors.New` or `fmt.Errorf`, with its text. -/
  | created (msg : GoString) : GoError ε
  /-- An error value returned by a handler. -/
  | handler (e : ε) : GoError ε

/-- The text of an error created in this package (`none` for a handler's error, whose
    text is the handler's business). -/
def GoError.message {ε : Type} : GoError ε → Option GoString
  | .created msg => some msg
  | .handler _ => none

/-- How a call of `Run` ends: it returns an `error` (`none` is nil), or the run-time
    panics. -/
inductive Ret (ε : Type) where
  /-- The call returns `err`. -/
  | value (err : Option (GoError ε)) : Ret ε
  /-- The call panics: a nil func was called. -/
  | panic : Ret ε

/-- What a call of `Run` leaves behind: the `App`, the world, the list of handler
    calls made (position of the entry in the registry, arguments passed), and the
    way the call ended. -/
structure RunResult (σ α ε : Type) where
  /-- The `App` after the call. -/
  app : App σ α ε
  /-- The world after the call. -/
  world : σ
  /-- The handler calls made, oldest first. -/
  calls : List (Nat × List α)
  /-- The result of the call. -/
  ret : Ret ε

/-- The text `fmt.Errorf("Could not find cmd: '%v' for execution", cmd)` formats: the
    verb `%v` prints a string as it is. -/
def notFoundMessage (cmd : GoString) : GoString :=
  str "Could not find cmd: '" ++ cmd ++ str "' for execution"

/-- The loop of `Run` over the entries not yet visited, the first of them at position
    `i` of the registry, followed by the final `return fmt.Errorf(...)`. -/
def runLoop {σ α ε : Type} (U : Unicode) (a : App σ α ε) (cmd : GoString) (args : List α)
    (w : σ) : Nat → List (CommandOption σ α ε) → RunResult σ α ε
  | _, [] => ⟨a, w, [], .value (some (.created (notFoundMessage cmd)))⟩
  | i, option :: rest =>
    if EqualFold U option.Cmd cmd then
      match option.Func with
      | none => ⟨a, w, [], .panic⟩
      | some f => ⟨a, (f args w).1, [(i, args)], .value ((f args w).2.map .handler)⟩
    else runLoop U a cmd args w (i + 1) rest

/-- The method `(*App).Run`. -/
def App.Run {σ α ε : Type} (U : Unicode) (a : App σ α ε) (cmd : GoString) (args : List α)
    (w : σ) : RunResult σ α ε :=
  runLoop U a cmd args w 0 a.Options

/-- The method `(*App).Add`; the result is the `App` after the call. -/
def App.Add {σ α ε : Type} (a : App σ α ε) (option : List (CommandOption σ α ε)) :
    App σ α ε :=
  { a with Options := CommandOptions.Append a.Options option }

/-- The method `(*App).AddOption`; the result is the `App` after the call and the
    returned `error`. -/
def App.AddOption {σ α ε : Type} (a : App σ α ε) (cmd : GoString) (_func : OptionFunc σ α ε) :
    App σ α ε × Option (GoError ε) :=
  if cmd = [] then (a, some (.created (str "no command name was given")))
  else if _func.isNone then (a, some (.created (str "no function was given")))
  else
    ({ a with Options :=
        CommandOptions.Append a.Options [{ Cmd := cmd, Description := [], Func := _func }] },
     none)

/-- The loop of `padChar`: `for i := 0; i < num; i++ { s += string(char) }`, with the
    number of iterations still to run. -/
def padCharLoop (char : Nat) : Nat → GoString → GoString
  | 0, s => s
  | n + 1, s => padCharLoop char n (s ++ EncodeRune char)

/-- The function `padChar`; the loop body runs `num` times when `num` is positive and
    not at all otherwise. -/
def padChar (char : Nat) (num : Int) : GoString := padCharLoop char num.toNat []

/-- The function `padSpaces`. -/
def padSpaces (num : Int) : GoString := padChar 0x20 num

/-- The function `padStars`. -/
def padStars (num : Int) : GoString := padChar 0x2A num

/-- The first loop of `longestCmdIdx`, with the current value of `max`. -/
def longestLoop {σ α ε : Type} : List (CommandOption σ α ε) → Int → Int
  | [], max => max
  | cmd :: rest, max => longestLoop rest (if len cmd.Cmd > max then len cmd.Cmd else max)

/-- The method `(*App).longestCmdIdx`. -/
def App.longestCmdIdx {σ α ε : Type} (a : App σ α ε) : Int :=
  let max := longestLoop a.Options 0
  if max > isub a.MaxTerminalWidth 30 then isub a.MaxTerminalWidth 30 else max

/-- The method `(*App).computeMargin`; the result is the `App` after the call. -/
def App.computeMargin {σ α ε : Type} (a : App σ α ε) : App σ α ε :=
  if a.margin = 0 then { a with margin := a.longestCmdIdx, delimiter := str " - " } else a

/-- The value `threshold` of `reshapeText`, from the cached margin and delimiter. -/
def App.threshold {σ α ε : Type} (a : App σ α ε) : Int :=
  isub (isub a.MaxTerminalWidth a.margin) (len a.delimiter)

/-- The loop of `reshapeText` over the words not yet visited, with the current line
    `pt` and the lines completed so far; the result is the final `paragraphs`. -/
def wrapLoop (threshold : Int) : List GoString → GoString → List GoString → List GoString
  | [], _, paragraphs => paragraphs
  | word :: rest, pt, paragraphs =>
    if iadd (len pt) (len word) < threshold then
      wrapLoop threshold rest (pt ++ (word ++ str " ")) paragraphs
    else
      wrapLoop threshold rest (padSpaces threshold) (paragraphs ++ [Trim pt])

/-- The method `(*App).reshapeText`; the result is the `App` after the call and the
    returned string. -/
def App.reshapeText {σ α ε : Type} (a : App σ α ε) (text : GoString) : App σ α ε × GoString :=
  let a := a.computeMargin
  let threshold := a.threshold
  if len text < threshold then (a, padSpaces 30 ++ text)
  else (a, Join (wrapLoop threshold (Split text) (padSpaces threshold) []) (str "\n"))

/-- The loop of `showCmdHelp` over the entries not yet visited, with the current `App`
    and `text`. -/
def showCmdHelpLoop {σ α ε : Type} :
    List (CommandOption σ α ε) → App σ α ε → GoString → App σ α ε × GoString
  | [], a, text => (a, text)
  | option :: rest, a, text =>
    showCmdHelpLoop rest (a.reshapeText (Trim option.Description)).1
      (text ++ (a.reshapeText (Trim option.Description)).2)

/-- The method `(*App).showCmdHelp`; the result is the `App` after the call and the
    returned string. -/
def App.showCmdHelp {σ α ε : Type} (a : App σ α ε) : App σ α ε × GoString :=
  showCmdHelpLoop a.Options a []

/-- The method `(*App).ShowHelp`; the result is the `App` after the call and the text
    handed to `fmt.Print`, that is, written to standard output. -/
def App.ShowHelp {σ α ε : Type} (a : App σ α ε) : App σ α ε × GoString :=
  let text : GoString := []
  let text :=
    if a.Name ≠ [] then
      (text ++ (padStars a.MaxTerminalWidth ++ str "\n\n")) ++
        (str "\n\n" ++ padStars a.MaxTerminalWidth ++ str "\n\n")
    else text
  let text := if a.Description ≠ [] then text ++ (a.Description ++ str "\n\n") else text
  let help := a.showCmdHelp
  (help.1, if help.2 ≠ [] then text ++ help.2 else text)

/-- The method `(*App).centerPadText`. -/
def App.centerPadText {σ α ε : Type} (a : App σ α ε) (text : GoString) : GoString :=
  let _len := len text
  if _len > a.MaxTerminalWidth then text
  else
    let numspaces := idiv (isub a.MaxTerminalWidth _len) 2
    padSpaces numspaces ++ text ++ padSpaces numspaces

/-! ## Quantities of the specification -/

/-- The lower-case letter of an ASCII upper-case letter; every other rune is fixed. -/
def lowerRune (r : Nat) : Nat := if 0x41 ≤ r ∧ r ≤ 0x5A then r + 0x20 else r

/-- The greatest byte length of a command name in the registry, 0 for the empty
    registry: the quantity the margin is specified from. -/
def longestName {σ α ε : Type} (co : CommandOptions σ α ε) : Nat :=
  (co.map fun o => o.Cmd.length).foldr max 0

/-! ## Concrete inputs -/

/-- A handler that counts its calls in the world and returns nil. -/
def countCalls : List Nat → Nat → Nat × Option Nat := fun _ w => (w + 1, none)

/-- A handler that returns the number of its arguments as its error. -/
def failWith : List Nat → Nat → Nat × Option Nat := fun args w => (w, some args.length)

/-- An `App` of width 80 with no command and nothing cached. -/
def emptyApp : App Nat Nat Nat :=
  { Name := [], Description := [], MaxTerminalWidth := 80, margin := 0, delimiter := [],
    Options := [] }

/-- An `App` of width 80 with two commands whose names differ in case only. -/
def greetApp : App Nat Nat Nat :=
  { Name := str "demo", Description := str "a demo", MaxTerminalWidth := 80, margin := 0,
    delimiter := [],
    Options := [{ Cmd := str "greet", Description := str "says hello", Func := some countCalls },
                { Cmd := str "GREET", Description := [], Func := some failWith }] }

/-- An `App` whose commands are named by the dotted capital I, U+0130, and by the
    dotless small i, U+0131. -/
def dottedApp : App Nat Nat Nat :=
  { Name := [], Description := [], MaxTerminalWidth := 80, margin := 0, delimiter := [],
    Options := [{ Cmd := str "İ", Description := [], Func := some countCalls },
                { Cmd := str "ı", Description := [], Func := some failWith }] }

/-- An `App` whose width is the smallest `int`, with one command. -/
def narrowestApp : App Nat Nat Nat :=
  { Name := [], Description := [], MaxTerminalWidth := minInt, margin := 0, delimiter := [],
    Options := [{ Cmd := str "abc", Description := [], Func := some countCalls }] }

/-- An `App` of width 80 whose only command has an empty name, as `Add` stores it. -/
def namelessApp : App Nat Nat Nat :=
  emptyApp.Add [{ Cmd := [], Description := str "d", Func := none }]

/-! ## The comparison of runes -/

/-- The comparison `strings.EqualFold` makes, on the runes of the two strings: equally
    many runes, matching pairwise. -/
def runesMatch (U : Unicode) : List Nat → List Nat → Bool
  | [], [] => true
  | r :: rs, t :: ts => foldEq U r t && runesMatch U rs ts
  | _, _ => false

/-- A name for the orbit of a rune under the folding of `dotlessAndKelvin`: the
    lower-case letter for the letters, the Kelvin sign and the long s; the rune itself
    otherwise. -/
def foldKey (r : Nat) : Nat :=
  if r = 0x212A then 0x6B else if r = 0x17F then 0x73 else lowerRune r

/-! ## Sequences of calls -/

/-- A call that can change an `App`: `Add`, `AddOption`, `reshapeText` or `ShowHelp`,
    with its arguments. -/
inductive Op (σ α ε : Type) where
  /-- The call `a.Add(option...)`. -/
  | add (option : List (CommandOption σ α ε)) : Op σ α ε
  /-- The call `a.AddOption(cmd, _func)`. -/
  | addOption (cmd : GoString) (_func : OptionFunc σ α ε) : Op σ α ε
  /-- The call `a.reshapeText(text)`. -/
  | reshapeText (text : GoString) : Op σ α ε
  /-- The call `a.ShowHelp()`. -/
  | showHelp : Op σ α ε

/-- The `App` after one call. -/
def App.step {σ α ε : Type} (a : App σ α ε) : Op σ α ε → App σ α ε
  | .add option => a.Add option
  | .addOption cmd _func => (a.AddOption cmd _func).1
  | .reshapeText text => (a.reshapeText text).1
  | .showHelp => a.ShowHelp.1

/-- The `App` after a sequence of calls, made in the order of the list. -/
def App.steps {σ α ε : Type} (a : App σ α ε) (ops : List (Op σ α ε)) : App σ α ε :=
  ops.foldl App.step a

/-- The state of the cache of an `App` of width `W` that started with nothing cached:
    the width is `W`, and the cached margin, once it is not 0, lies between
    `min(0, W - 30)` and `W - 30` and comes with the delimiter ` - `. -/
def App.CacheOk {σ α ε : Type} (W : Int) (a : App σ α ε) : Prop :=
  a.MaxTerminalWidth = W ∧ min 0 (W - 30) ≤ a.margin ∧
    (a.margin = 0 ∨ (a.margin ≤ W - 30 ∧ a.delimiter = str " - "))

/-! ## More concrete inputs -/

/-- A description of 100 bytes in ten words. -/
def longDescription : GoString :=
  str "aaaaaaaaa bbbbbbbbb ccccccccc ddddddddd eeeeeeeee fffffffff ggggggggg hhhhhhhhh iiiiiiiii jjjjjjjjjj"

/-- An `App` of width 80 whose only command has an empty description. -/
def blankHelpApp : App Nat Nat Nat :=
  emptyApp.Add [{ Cmd := str "x", Description := [], Func := some countCalls }]

/-- The `App` `greetApp` with other command names of the same lengths. -/
def renamedApp : App Nat Nat Nat :=
  { greetApp with
    Options := [{ Cmd := str "abcde", Description := str "says hello", Func := some failWith },
                { Cmd := str "vwxyz", Description := [], Func := none }] }

/-- An `App` of width 80 whose only command, stored by `Add`, has a nil handler. -/
def nilHandlerApp : App Nat Nat Nat :=
  emptyApp.Add [{ Cmd := str "x", Description := [], Func := none }]

/-- An `App` with no command whose width is 29 above the smallest `int`. -/
def almostNarrowestApp : App Nat Nat Nat := { emptyApp with MaxTerminalWidth := minInt + 29 }

/-- A sequence of calls: a registration, a `reshapeText`, an `Add` and a `ShowHelp`. -/
def sampleOps : List (Op Nat Nat Nat) :=
  [.addOption (str "hello") (some countCalls), .reshapeText (str "x"),
   .add [{ Cmd := str "a-much-longer-command-name", Description := str "d", Func := none }],
   .showHelp]

/-- An `App` of width 80 whose only command has the description of 100 bytes. -/
def wrapApp : App Nat Nat Nat :=
  emptyApp.Add [{ Cmd := str "wrap", Description := longDescription, Func := some countCalls }]

/-! # Theorems -/

/-! ## Case folding of ASCII names -/

/-- Comparison of two ASCII runes in `strings.EqualFold`: they match exactly when they
    agree after upper-case letters are replaced by their lower-case letters. -/
theorem foldEq_ascii (U : Unicode) (sr tr : Nat) (hs : sr < 0x80) (ht : tr < 0x80) :
    foldEq U sr tr = decide (lowerRune sr = lowerRune tr) := by
  unfold foldEq lowerRune RuneSelf
  by_cases h : tr = sr
  · simp [h]
  · rw [if_neg h]
    by_cases hlt : tr < sr
    · simp only [hlt, if_true]
      have : sr < 128 := hs
      simp only [this, if_true]
      rw [Bool.eq_iff_iff]
      simp only [Bool.and_eq_true, decide_eq_true_eq]
      constructor
      · intro hh; split_ifs <;> omega
      · intro hh; split_ifs at hh <;> omega
    · simp only [hlt, if_false]
      have : tr < 128 := ht
      simp only [this, if_true]
      rw [Bool.eq_iff_iff]
      simp only [Bool.and_eq_true, decide_eq_true_eq]
      constructor
      · intro hh; split_ifs <;> omega
      · intro hh; split_ifs at hh <;> omega

/-- The orbit search stops at once when its condition fails. -/
theorem foldLoop_exit (U : Unicode) (sr tr fuel r : Nat) (h : ¬ (r ≠ sr ∧ r < tr)) :
    foldLoop U sr tr fuel r = some r := by
  cases fuel <;> simp only [foldLoop, if_neg h]

/-- One iteration of the orbit search. -/
theorem foldLoop_step (U : Unicode) (sr tr fuel r : Nat) (h : r ≠ sr ∧ r < tr) :
    foldLoop U sr tr (fuel + 1) r = foldLoop U sr tr fuel (SimpleFold U r) := by
  simp only [foldLoop, if_pos h]

/-- `unicode.SimpleFold` on an ASCII rune. -/
theorem simpleFold_ascii (U : Unicode) (r : Nat) (h : r < 0x80) :
    SimpleFold U r = asciiFold r := by
  unfold SimpleFold; rw [if_pos h]

/-- `unicode.SimpleFold` on a rune above ASCII. -/
theorem simpleFold_nonascii (U : Unicode) (r : Nat) (h : 0x80 ≤ r) :
    SimpleFold U r = U.SimpleFold r := by
  unfold SimpleFold; rw [if_neg (by omega)]

/-- Comparison of a non-ASCII rune of `s` with an ASCII rune of `t` in
    `strings.EqualFold`, given the rows of `caseOrbit` for the Kelvin sign and the long
    s: the only matches are `K`, `k` with U+212A and `S`, `s` with U+017F. -/
theorem foldEq_nonascii_ascii (U : Unicode) (hK : U.SimpleFold 0x212A = 0x4B)
    (hS : U.SimpleFold 0x17F = 0x53) (sr tr : Nat) (hs : 0x80 ≤ sr) (ht : tr < 0x80) :
    foldEq U sr tr =
      decide ((lowerRune tr = 0x6B ∧ sr = 0x212A) ∨ (lowerRune tr = 0x73 ∧ sr = 0x17F)) := by
  obtain ⟨n, rfl⟩ : ∃ n, sr = n + 4 := ⟨sr - 4, by omega⟩
  have hne : ¬ tr = n + 4 := by omega
  have hlt : tr < n + 4 := by omega
  have hhi : ¬ n + 4 < 128 := by omega
  unfold foldEq RuneSelf
  simp only [hne, hlt, hhi, if_true, if_false]
  rw [simpleFold_ascii U tr ht]
  rw [Bool.eq_iff_iff]
  simp only [decide_eq_true_eq]
  by_cases hKu : tr = 0x4B
  · subst hKu
    have h1 : asciiFold 0x4B = 0x6B := by decide
    have h2 : asciiFold 0x6B = 0x212A := by decide
    rw [h1, foldLoop_step U _ _ _ _ (by omega), simpleFold_ascii U _ (by omega), h2]
    by_cases hn : n + 4 ≤ 0x212A
    · rw [foldLoop_exit U _ _ _ _ (by omega)]
      simp [lowerRune]
    · rw [foldLoop_step U _ _ _ _ (by omega), simpleFold_nonascii U _ (by omega), hK,
        foldLoop_exit U _ _ _ _ (by omega)]
      simp [lowerRune]
      omega
  by_cases hKl : tr = 0x6B
  · subst hKl
    have h1 : asciiFold 0x4B = 0x6B := by decide
    have h2 : asciiFold 0x6B = 0x212A := by decide
    rw [h2]
    by_cases hn : n + 4 ≤ 0x212A
    · rw [foldLoop_exit U _ _ _ _ (by omega)]
      simp [lowerRune]
    · rw [foldLoop_step U _ _ _ _ (by omega), simpleFold_nonascii U _ (by omega), hK,
        foldLoop_step U _ _ _ _ (by omega), simpleFold_ascii U _ (by omega), h1,
        foldLoop_exit U _ _ _ _ (by omega)]
      simp [lowerRune]
      omega
  by_cases hSu : tr = 0x53
  · subst hSu
    have h1 : asciiFold 0x53 = 0x73 := by decide
    have h2 : asciiFold 0x73 = 0x17F := by decide
    rw [h1, foldLoop_step U _ _ _ _ (by omega), simpleFold_ascii U _ (by omega), h2]
    by_cases hn : n + 4 ≤ 0x17F
    · rw [foldLoop_exit U _ _ _ _ (by omega)]
      simp [lowerRune]
    · rw [foldLoop_step U _ _ _ _ (by omega), simpleFold_nonascii U _ (by omega), hS,
        foldLoop_exit U _ _ _ _ (by omega)]
      simp [lowerRune]
      omega
  by_cases hSl : tr = 0x73
  · subst hSl
    have h1 : asciiFold 0x53 = 0x73 := by decide
    have h2 : asciiFold 0x73 = 0x17F := by decide
    rw [h2]
    by_cases hn : n + 4 ≤ 0x17F
    · rw [foldLoop_exit U _ _ _ _ (by omega)]
      simp [lowerRune]
    · rw [foldLoop_step U _ _ _ _ (by omega), simpleFold_nonascii U _ (by omega), hS,
        foldLoop_step U _ _ _ _ (by omega), simpleFold_ascii U _ (by omega), h1,
        foldLoop_exit U _ _ _ _ (by omega)]
      simp [lowerRune]
      omega
  by_cases hup : 0x41 ≤ tr ∧ tr ≤ 0x5A
  · have h1 : asciiFold tr = tr + 0x20 := by unfold asciiFold; rw [if_pos hup]
    have h2 : asciiFold (tr + 0x20) = tr := by
      unfold asciiFold
      rw [if_neg (by omega), if_neg (by omega), if_neg (by omega), if_pos (by omega)]
      omega
    rw [h1, foldLoop_step U _ _ _ _ (by omega), simpleFold_ascii U _ (by omega), h2,
      foldLoop_exit U _ _ _ _ (by omega)]
    simp [lowerRune, hup]
    omega
  by_cases hlo : 0x61 ≤ tr ∧ tr ≤ 0x7A
  · have h1 : asciiFold tr = tr - 0x20 := by
      unfold asciiFold
      rw [if_neg hup, if_neg hKl, if_neg hSl, if_pos hlo]
    have h2 : asciiFold (tr - 0x20) = tr := by
      unfold asciiFold
      rw [if_pos (by omega)]
      omega
    rw [h1, foldLoop_step U _ _ _ _ (by omega), simpleFold_ascii U _ (by omega), h2,
      foldLoop_exit U _ _ _ _ (by omega)]
    simp [lowerRune, hup]
    omega
  · have h1 : asciiFold tr = tr := by
      unfold asciiFold
      rw [if_neg hup, if_neg hKl, if_neg hSl, if_neg hlo]
    rw [h1, foldLoop_exit U _ _ _ _ (by omega)]
    simp [lowerRune, hup]
    omega

/-- Replacing an ASCII rune of `t` by another with the same lower-case letter does
    not change its comparison with a rune of `s`. -/
theorem foldEq_congr_lower (U : Unicode) (hK : U.SimpleFold 0x212A = 0x4B)
    (hS : U.SimpleFold 0x17F = 0x53) (sr c c' : Nat) (hc : c < 0x80) (hc' : c' < 0x80)
    (h : lowerRune c' = lowerRune c) : foldEq U sr c' = foldEq U sr c := by
  by_cases hs : sr < 0x80
  · rw [foldEq_ascii U sr c' hs hc', foldEq_ascii U sr c hs hc, h]
  · rw [foldEq_nonascii_ascii U hK hS sr c' (by omega) hc',
      foldEq_nonascii_ascii U hK hS sr c (by omega) hc, h]

/-- One step of the rune-wise part of `strings.EqualFold` against an ASCII byte of `t`. -/
theorem equalFoldUnicode_cons_ascii (U : Unicode) (n : Nat) (b : Byte) (s : GoString)
    (t0 : Byte) (trest : GoString) (ht : t0.val < 0x80) :
    equalFoldUnicode U (n + 1) (b :: s) (t0 :: trest) =
      (foldEq U (DecodeRuneInString (b :: s)).1 t0.val &&
        equalFoldUnicode U n ((b :: s).drop (DecodeRuneInString (b :: s)).2) trest) := by
  have ht' : t0.val < RuneSelf := ht
  simp only [equalFoldUnicode, ht', if_true, List.drop_one, List.tail_cons]
  cases foldEq U (DecodeRuneInString (b :: s)).1 t0.val <;> simp

/-- The rune-wise part of `strings.EqualFold` does not depend on the case of the ASCII
    letters of `t`. -/
theorem equalFoldUnicode_map_ascii (U : Unicode) (hK : U.SimpleFold 0x212A = 0x4B)
    (hS : U.SimpleFold 0x17F = 0x53) (g : Byte → Byte)
    (hg : ∀ b : Byte, b.val < 0x80 → (g b).val < 0x80 ∧ lowerRune (g b).val = lowerRune b.val) :
    ∀ (n : Nat) (s t : GoString), (∀ b ∈ t, b.val < 0x80) →
      equalFoldUnicode U n s (t.map g) = equalFoldUnicode U n s t
  | 0, _, t, _ => by cases t <;> simp [equalFoldUnicode]
  | _ + 1, [], t, _ => by cases t <;> simp [equalFoldUnicode]
  | n + 1, b :: s, [], _ => by simp [equalFoldUnicode]
  | n + 1, b :: s, t0 :: trest, h => by
    have ht0 : t0.val < 0x80 := h t0 (by simp)
    have hrest : ∀ b ∈ trest, b.val < 0x80 := fun b hb => h b (by simp [hb])
    rw [List.map_cons, equalFoldUnicode_cons_ascii U n b s (g t0) _ (hg t0 ht0).1,
      equalFoldUnicode_cons_ascii U n b s t0 _ ht0,
      foldEq_congr_lower U hK hS _ t0.val (g t0).val ht0 (hg t0 ht0).1 (hg t0 ht0).2,
      equalFoldUnicode_map_ascii U hK hS g hg n _ trest hrest]

/-- One step of the byte-wise part of `strings.EqualFold` on two ASCII bytes. -/
theorem equalFold_cons_ascii (U : Unicode) (sr tr : Byte) (s t : GoString)
    (hs : sr.val < 0x80) (ht : tr.val < 0x80) :
    EqualFold U (sr :: s) (tr :: t) =
      (decide (lowerRune sr.val = lowerRune tr.val) && EqualFold U s t) := by
  have hcond : ¬ (RuneSelf ≤ sr.val ∨ RuneSelf ≤ tr.val) := by
    unfold RuneSelf; omega
  rw [EqualFold, if_neg hcond]
  by_cases heq : tr = sr
  · subst heq
    simp
  · rw [if_neg heq]
    have hval : tr.val ≠ sr.val := fun hc => heq (Fin.ext hc)
    by_cases hlow : lowerRune sr.val = lowerRune tr.val
    · rw [if_pos, decide_eq_true hlow, Bool.true_and]
      unfold lowerRune at hlow
      split_ifs at hlow <;> split_ifs <;> omega
    · rw [if_neg, decide_eq_false hlow, Bool.false_and]
      unfold lowerRune at hlow
      split_ifs at hlow <;> split_ifs <;> omega

/-- The byte-wise part of `strings.EqualFold` hands over to the rune-wise part at a
    non-ASCII byte of `s`. -/
theorem equalFold_cons_nonascii (U : Unicode) (sr tr : Byte) (s t : GoString)
    (hs : 0x80 ≤ sr.val) :
    EqualFold U (sr :: s) (tr :: t) =
      equalFoldUnicode U (sr :: s).length (sr :: s) (tr :: t) := by
  have hcond : RuneSelf ≤ sr.val ∨ RuneSelf ≤ tr.val := Or.inl hs
  rw [EqualFold, if_pos hcond]

/-- `strings.EqualFold(s, t)` does not depend on the case of the ASCII letters of an
    all-ASCII `t`. -/
theorem equalFold_map_ascii (U : Unicode) (hK : U.SimpleFold 0x212A = 0x4B)
    (hS : U.SimpleFold 0x17F = 0x53) (g : Byte → Byte)
    (hg : ∀ b : Byte, b.val < 0x80 → (g b).val < 0x80 ∧ lowerRune (g b).val = lowerRune b.val) :
    ∀ (s t : GoString), (∀ b ∈ t, b.val < 0x80) →
      EqualFold U s (t.map g) = EqualFold U s t
  | [], t, _ => by cases t <;> simp [EqualFold]
  | sr :: s, [], _ => by simp [EqualFold]
  | sr :: s, tr :: t, h => by
    have ht0 : tr.val < 0x80 := h tr (by simp)
    have hrest : ∀ b ∈ t, b.val < 0x80 := fun b hb => h b (by simp [hb])
    by_cases hs : sr.val < 0x80
    · rw [List.map_cons, equalFold_cons_ascii U sr (g tr) s _ hs (hg tr ht0).1,
        equalFold_cons_ascii U sr tr s t hs ht0, (hg tr ht0).2,
        equalFold_map_ascii U hK hS g hg s t hrest]
    · rw [List.map_cons, equalFold_cons_nonascii U sr (g tr) s _ (by omega),
        equalFold_cons_nonascii U sr tr s t (by omega), ← List.map_cons,
        equalFoldUnicode_map_ascii U hK hS g hg _ _ (tr :: t) h]

/-- An all-ASCII string equals itself under `strings.EqualFold`. -/
theorem equalFold_refl_ascii (U : Unicode) :
    ∀ (t : GoString), (∀ b ∈ t, b.val < 0x80) → EqualFold U t t = true
  | [], _ => by simp [EqualFold]
  | tr :: t, h => by
    rw [equalFold_cons_ascii U tr tr t t (h tr (by simp)) (h tr (by simp)),
      equalFold_refl_ascii U t (fun b hb => h b (by simp [hb]))]
    simp

/-- Decoding an ASCII byte. -/
theorem decode_ascii (b : Byte) (s : GoString) (h : b.val < 0x80) :
    DecodeRuneInString (b :: s) = (b.val, 1) := by
  simp only [DecodeRuneInString, h, if_true]

/-- Decoding a non-empty string consumes at least one byte. -/
theorem decode_width_pos (b : Byte) (s : GoString) : 1 ≤ (DecodeRuneInString (b :: s)).2 := by
  unfold DecodeRuneInString
  simp only
  split_ifs <;> (try split) <;> (try split_ifs) <;> simp

/-- A rune equals itself under the comparison of `strings.EqualFold`. -/
theorem foldEq_self (U : Unicode) (r : Nat) : foldEq U r r = true := by
  unfold foldEq; rw [if_pos rfl]

/-- The rune-wise part of `strings.EqualFold` accepts two copies of one string. -/
theorem equalFoldUnicode_refl (U : Unicode) :
    ∀ (n : Nat) (s : GoString), s.length ≤ n → equalFoldUnicode U n s s = true
  | 0, s, h => by
    have : s = [] := List.length_eq_zero.mp (Nat.le_zero.mp h)
    subst this
    rfl
  | _ + 1, [], _ => rfl
  | n + 1, b :: s, h => by
    have hw := decode_width_pos b s
    have hrec := equalFoldUnicode_refl U n ((b :: s).drop (DecodeRuneInString (b :: s)).2) (by
      rw [List.length_drop]
      simp only [List.length_cons] at h ⊢
      omega)
    by_cases hb : b.val < RuneSelf
    · have hd := decode_ascii b s hb
      simp only [equalFoldUnicode, hb, if_true, hd, foldEq_self]
      rw [hd] at hrec
      exact hrec
    · simp only [equalFoldUnicode, hb, if_false, foldEq_self, if_true]
      exact hrec

/-- Every string equals itself under `strings.EqualFold`. -/
theorem equalFold_refl (U : Unicode) : ∀ s : GoString, EqualFold U s s = true
  | [] => by simp [EqualFold]
  | b :: s => by
    by_cases hb : b.val < 0x80
    · rw [equalFold_cons_ascii U b b s s hb hb, equalFold_refl U s]
      simp
    · rw [equalFold_cons_nonascii U b b s s (by omega)]
      exact equalFoldUnicode_refl U _ _ (Nat.le_refl _)

/-- `strings.ToLower` on an all-ASCII string. -/
theorem toLower_ascii (U : Unicode) (s : GoString) (h : ∀ b ∈ s, b.val < 0x80) :
    ToLower U s = s.map fun c => if 0x41 ≤ c.val ∧ c.val ≤ 0x5A then c + 0x20 else c := by
  unfold ToLower
  rw [if_pos]
  simpa [RuneSelf] using h

/-- `strings.ToUpper` on an all-ASCII string. -/
theorem toUpper_ascii (U : Unicode) (s : GoString) (h : ∀ b ∈ s, b.val < 0x80) :
    ToUpper U s = s.map fun c => if 0x61 ≤ c.val ∧ c.val ≤ 0x7A then c - 0x20 else c := by
  unfold ToUpper
  rw [if_pos]
  simpa [RuneSelf] using h

/-- Lower-casing an ASCII byte keeps it ASCII and keeps its lower-case letter. -/
theorem lowerByte_spec (b : Byte) (h : b.val < 0x80) :
    (if 0x41 ≤ b.val ∧ b.val ≤ 0x5A then b + 0x20 else b).val < 0x80 ∧
    lowerRune (if 0x41 ≤ b.val ∧ b.val ≤ 0x5A then b + 0x20 else b).val = lowerRune b.val := by
  by_cases hu : 0x41 ≤ b.val ∧ b.val ≤ 0x5A
  · have hv : (b + 0x20).val = b.val + 0x20 := by
      rw [Fin.val_add]
      have : ((0x20 : Byte) : Nat) = 0x20 := rfl
      rw [this]
      omega
    rw [if_pos hu, hv]
    unfold lowerRune
    refine ⟨by omega, ?_⟩
    rw [if_neg (by omega), if_pos hu]
  · rw [if_neg hu]
    exact ⟨h, rfl⟩

/-- Upper-casing an ASCII byte keeps it ASCII and keeps its lower-case letter. -/
theorem upperByte_spec (b : Byte) (h : b.val < 0x80) :
    (if 0x61 ≤ b.val ∧ b.val ≤ 0x7A then b - 0x20 else b).val < 0x80 ∧
    lowerRune (if 0x61 ≤ b.val ∧ b.val ≤ 0x7A then b - 0x20 else b).val = lowerRune b.val := by
  by_cases hu : 0x61 ≤ b.val ∧ b.val ≤ 0x7A
  · have hv : (b - 0x20).val = b.val - 0x20 := by
      rw [Fin.coe_sub]
      have : ((0x20 : Byte) : Nat) = 0x20 := rfl
      rw [this]
      omega
    rw [if_pos hu, hv]
    unfold lowerRune
    refine ⟨by omega, ?_⟩
    rw [if_pos (by omega), if_neg (by omega)]
    omega
  · rw [if_neg hu]
    exact ⟨h, rfl⟩

/-! ## Dispatch -/

/-- A list with an element satisfying `p` splits at the first such element. -/
theorem exists_first_split {β : Type} (p : β → Bool) :
    ∀ l : List β, (∃ e ∈ l, p e = true) →
      ∃ pre o post, l = pre ++ o :: post ∧ (∀ x ∈ pre, p x = false) ∧ p o = true
  | [], h => by obtain ⟨e, he, _⟩ := h; cases he
  | x :: l, h => by
    by_cases hx : p x = true
    · exact ⟨[], x, l, rfl, by simp, hx⟩
    · have hl : ∃ e ∈ l, p e = true := by
        obtain ⟨e, he, hpe⟩ := h
        rcases List.mem_cons.mp he with rfl | he
        · exact absurd hpe hx
        · exact ⟨e, he, hpe⟩
      obtain ⟨pre, o, post, hsplit, hpre, ho⟩ := exists_first_split p l hl
      refine ⟨x :: pre, o, post, by simp [hsplit], ?_, ho⟩
      intro y hy
      rcases List.mem_cons.mp hy with rfl | hy
      · simpa using hx
      · exact hpre y hy

/-- The loop of `Run` walks past the entries whose name does not match. -/
theorem runLoop_skip {σ α ε : Type} (U : Unicode) (a : App σ α ε) (cmd : GoString)
    (args : List α) (w : σ) :
    ∀ (pre rest : List (CommandOption σ α ε)) (i : Nat),
      (∀ p ∈ pre, EqualFold U p.Cmd cmd = false) →
      runLoop U a cmd args w i (pre ++ rest) = runLoop U a cmd args w (i + pre.length) rest
  | [], rest, i, _ => by simp
  | p :: pre, rest, i, h => by
    have hp : EqualFold U p.Cmd cmd = false := h p (by simp)
    have ih := runLoop_skip U a cmd args w pre rest (i + 1) (fun q hq => h q (by simp [hq]))
    have hlen : i + 1 + pre.length = i + (pre.length + 1) := by omega
    rw [List.cons_append, runLoop, hp, if_neg Bool.false_ne_true, ih, List.length_cons, hlen]

/-- The result of `Run` when the first entry whose name matches is known. -/
theorem run_eq_of_first_match {σ α ε : Type} (U : Unicode) (a : App σ α ε)
    (cmd : GoString) (args : List α) (w : σ) (pre post : List (CommandOption σ α ε))
    (o : CommandOption σ α ε) (hsplit : a.Options = pre ++ o :: post)
    (hpre : ∀ p ∈ pre, EqualFold U p.Cmd cmd = false) (ho : EqualFold U o.Cmd cmd = true) :
    a.Run U cmd args w =
      match o.Func with
      | none => ⟨a, w, [], .panic⟩
      | some f => ⟨a, (f args w).1, [(pre.length, args)], .value ((f args w).2.map .handler)⟩ := by
  unfold App.Run
  rw [hsplit, runLoop_skip U a cmd args w pre (o :: post) 0 hpre]
  simp [runLoop, ho]

/-- The result of `Run` when no entry's name matches. -/
theorem run_eq_of_no_match {σ α ε : Type} (U : Unicode) (a : App σ α ε)
    (cmd : GoString) (args : List α) (w : σ)
    (h : ∀ o ∈ a.Options, EqualFold U o.Cmd cmd = false) :
    a.Run U cmd args w = ⟨a, w, [], .value (some (.created (notFoundMessage cmd)))⟩ := by
  have := runLoop_skip U a cmd args w a.Options [] 0 h
  unfold App.Run
  rw [List.append_nil] at this
  rw [this, runLoop]

/-- C1, as amended. Given the rows of Go's `caseOrbit` table for the Kelvin sign and the
    long s: for every entry of the registry, with name `N`, `Run(N, args)` finds an
    entry, the first one whose name equals `N` under `strings.EqualFold`, and calls its
    handler with `args`; and when `N` consists of ASCII bytes, `Run(ToLower(N), args)`
    and `Run(ToUpper(N), args)` find that same entry and end exactly as `Run(N, args)`
    does, the same handler being called with the same arguments. -/
theorem run_case_insensitive_on_ascii {σ α ε : Type} (U : Unicode)
    (hK : U.SimpleFold 0x212A = 0x4B) (hS : U.SimpleFold 0x17F = 0x53) (a : App σ α ε)
    (e : CommandOption σ α ε) (he : e ∈ a.Options) (args : List α) (w : σ) :
    ∃ pre o post, a.Options = pre ++ o :: post ∧
      (∀ p ∈ pre, EqualFold U p.Cmd e.Cmd = false) ∧ EqualFold U o.Cmd e.Cmd = true ∧
      (∀ f, o.Func = some f →
        a.Run U e.Cmd args w =
          ⟨a, (f args w).1, [(pre.length, args)], .value ((f args w).2.map .handler)⟩) ∧
      ((∀ b ∈ e.Cmd, b.val < 0x80) →
        ∀ cmd, cmd = ToLower U e.Cmd ∨ cmd = ToUpper U e.Cmd →
          (∀ p ∈ pre, EqualFold U p.Cmd cmd = false) ∧ EqualFold U o.Cmd cmd = true ∧
          a.Run U cmd args w = a.Run U e.Cmd args w ∧
          ∀ f, o.Func = some f →
            a.Run U cmd args w =
              ⟨a, (f args w).1, [(pre.length, args)], .value ((f args w).2.map .handler)⟩) := by
  obtain ⟨pre, o, post, hsplit, hpre, ho⟩ :=
    exists_first_split (fun x : CommandOption σ α ε => EqualFold U x.Cmd e.Cmd) a.Options
      ⟨e, he, equalFold_refl U e.Cmd⟩
  have hrun := run_eq_of_first_match U a e.Cmd args w pre post o hsplit hpre ho
  refine ⟨pre, o, post, hsplit, hpre, ho, ?_, ?_⟩
  · intro f hf
    rw [hrun, hf]
  · intro hascii cmd hcmd
    have hsame : ∀ x : GoString, EqualFold U x cmd = EqualFold U x e.Cmd := by
      intro x
      rcases hcmd with rfl | rfl
      · rw [toLower_ascii U e.Cmd hascii]
        exact equalFold_map_ascii U hK hS _ lowerByte_spec x e.Cmd hascii
      · rw [toUpper_ascii U e.Cmd hascii]
        exact equalFold_map_ascii U hK hS _ upperByte_spec x e.Cmd hascii
    have hpre' : ∀ p ∈ pre, EqualFold U p.Cmd cmd = false := fun p hp => by
      rw [hsame]; exact hpre p hp
    have ho' : EqualFold U o.Cmd cmd = true := by rw [hsame]; exact ho
    have hrun' := run_eq_of_first_match U a cmd args w pre post o hsplit hpre' ho'
    refine ⟨hpre', ho', by rw [hrun, hrun'], ?_⟩
    intro f hf
    rw [hrun', hf]

set_option maxRecDepth 8000 in
/-- C1, witness: in an `App` with the commands `greet` and `GREET`, in this order, the
    name `GREET` of the second entry, its lower case and its upper case are all
    dispatched to the first entry, whose handler is called once with the arguments. -/
theorem run_case_insensitive_on_ascii_witness :
    dotlessAndKelvin.SimpleFold 0x212A = 0x4B ∧ dotlessAndKelvin.SimpleFold 0x17F = 0x53 ∧
    ({ Cmd := str "GREET", Description := [], Func := some failWith } :
      CommandOption Nat Nat Nat) ∈ greetApp.Options ∧
    (∀ b ∈ str "GREET", b.val < 0x80) ∧
    ToLower dotlessAndKelvin (str "GREET") = str "greet" ∧
    greetApp.Run dotlessAndKelvin (str "greet") [7] 0 =
      greetApp.Run dotlessAndKelvin (str "GREET") [7] 0 ∧
    greetApp.Run dotlessAndKelvin (ToUpper dotlessAndKelvin (str "GREET")) [7] 0 =
      greetApp.Run dotlessAndKelvin (str "GREET") [7] 0 ∧
    greetApp.Run dotlessAndKelvin (str "GREET") [7] 0 =
      ⟨greetApp, 1, [(0, [7])], .value none⟩ := by
  have hmem : ({ Cmd := str "GREET", Description := [], Func := some failWith } :
      CommandOption Nat Nat Nat) ∈ greetApp.Options := by simp [greetApp]
  have hascii : ∀ b ∈ str "GREET", b.val < 0x80 := by decide
  have hlow : ToLower dotlessAndKelvin (str "GREET") = str "greet" := by decide
  obtain ⟨pre, o, post, _, _, _, _, hcase⟩ :=
    run_case_insensitive_on_ascii dotlessAndKelvin rfl rfl greetApp
      { Cmd := str "GREET", Description := [], Func := some failWith } hmem [7] 0
  refine ⟨rfl, rfl, hmem, hascii, hlow, ?_, ?_, rfl⟩
  · have := (hcase hascii _ (Or.inl rfl)).2.2.1
    rw [hlow] at this
    exact this
  · exact (hcase hascii _ (Or.inr rfl)).2.2.1

/-- C1, counterexample: the registry holds a command named by the dotted capital I
    (U+0130, bytes C4 B0). `Run` with that name calls its handler; `strings.ToLower`
    turns the name into `i`, which `strings.EqualFold` does not match with U+0130, so
    `Run` with the lower-case name calls no handler and returns the not-found error.
    The same happens to the upper case `I` of the dotless small i (U+0131). -/
theorem run_lowercase_of_dotted_I_not_found :
    dottedApp.Options.map (fun o => o.Cmd) = [[0xC4, 0xB0], [0xC4, 0xB1]] ∧
    (dottedApp.Run dotlessAndKelvin (str "İ") [] 0).calls = [(0, [])] ∧
    ToLower dotlessAndKelvin (str "İ") = str "i" ∧
    (dottedApp.Run dotlessAndKelvin (ToLower dotlessAndKelvin (str "İ")) [] 0).calls = [] ∧
    (dottedApp.Run dotlessAndKelvin (ToLower dotlessAndKelvin (str "İ")) [] 0).ret =
      .value (some (.created (str "Could not find cmd: 'i' for execution"))) ∧
    (dottedApp.Run dotlessAndKelvin (str "ı") [] 0).calls = [(1, [])] ∧
    ToUpper dotlessAndKelvin (str "ı") = str "I" ∧
    (dottedApp.Run dotlessAndKelvin (ToUpper dotlessAndKelvin (str "ı")) [] 0).calls = [] ∧
    (dottedApp.Run dotlessAndKelvin (ToUpper dotlessAndKelvin (str "ı")) [] 0).ret =
      .value (some (.created (str "Could not find cmd: 'I' for execution"))) := by
  refine ⟨by decide, by decide, by decide, by decide, ?_, by decide, by decide, by decide, ?_⟩
  · rfl
  · rfl

/-- C2. When some entry's name equals `cmd` under `strings.EqualFold`, `Run` calls the
    handler `f` of the first such entry in insertion order and no other handler (a
    later entry with a matching name is never reached), hands it `args` as given, and
    returns what the handler returns: nil for nil, and the handler's own error value,
    not wrapped, otherwise. The handler of an entry is the func its `Func` field
    holds. -/
theorem run_dispatches_first_match {σ α ε : Type} (U : Unicode) (a : App σ α ε)
    (cmd : GoString) (args : List α) (w : σ)
    (h : ∃ e ∈ a.Options, EqualFold U e.Cmd cmd = true) :
    ∃ pre o post, a.Options = pre ++ o :: post ∧
      (∀ p ∈ pre, EqualFold U p.Cmd cmd = false) ∧ EqualFold U o.Cmd cmd = true ∧
      ∀ f, o.Func = some f →
        a.Run U cmd args w =
          ⟨a, (f args w).1, [(pre.length, args)], .value ((f args w).2.map .handler)⟩ ∧
        ((f args w).2 = none → (a.Run U cmd args w).ret = .value none) ∧
        (∀ e, (f args w).2 = some e → (a.Run U cmd args w).ret = .value (some (.handler e))) := by
  obtain ⟨pre, o, post, hsplit, hpre, ho⟩ :=
    exists_first_split (fun e : CommandOption σ α ε => EqualFold U e.Cmd cmd) a.Options h
  refine ⟨pre, o, post, hsplit, hpre, ho, ?_⟩
  intro f hf
  have hrun : a.Run U cmd args w =
      ⟨a, (f args w).1, [(pre.length, args)], .value ((f args w).2.map .handler)⟩ := by
    unfold App.Run
    rw [hsplit, runLoop_skip U a cmd args w pre (o :: post) 0 hpre]
    simp [runLoop, ho, hf]
  refine ⟨hrun, ?_, ?_⟩
  · intro hnil
    rw [hrun]
    simp [hnil]
  · intro e he
    rw [hrun]
    simp [he]

/-- C2, witness: `Run("Greet", 1, 2)` on the commands `greet` and `GREET` calls the
    handler of `greet`, the first entry, with the two arguments, and returns its nil. -/
theorem run_dispatches_first_match_witness :
    (∃ e ∈ greetApp.Options, EqualFold dotlessAndKelvin e.Cmd (str "Greet") = true) ∧
    ∃ pre o post, greetApp.Options = pre ++ o :: post ∧
      (∀ p ∈ pre, EqualFold dotlessAndKelvin p.Cmd (str "Greet") = false) ∧
      EqualFold dotlessAndKelvin o.Cmd (str "Greet") = true ∧
      ∀ f, o.Func = some f →
        greetApp.Run dotlessAndKelvin (str "Greet") [1, 2] 0 =
          ⟨greetApp, (f [1, 2] 0).1, [(pre.length, [1, 2])],
            .value ((f [1, 2] 0).2.map .handler)⟩ ∧
        ((f [1, 2] 0).2 = none →
          (greetApp.Run dotlessAndKelvin (str "Greet") [1, 2] 0).ret = .value none) ∧
        (∀ e, (f [1, 2] 0).2 = some e →
          (greetApp.Run dotlessAndKelvin (str "Greet") [1, 2] 0).ret =
            .value (some (.handler e))) :=
  have h : ∃ e ∈ greetApp.Options, EqualFold dotlessAndKelvin e.Cmd (str "Greet") = true :=
    ⟨{ Cmd := str "greet", Description := str "says hello", Func := some countCalls },
      by simp [greetApp], by decide⟩
  ⟨h, run_dispatches_first_match dotlessAndKelvin greetApp (str "Greet") [1, 2] 0 h⟩

/-- C3. When no entry's name equals `cmd` under `strings.EqualFold` (the empty registry
    included), `Run` calls no handler, leaves the `App` and the world as they were and
    returns a new error whose text is `Could not find cmd: '` + `cmd` + `' for execution`,
    which contains `cmd`; and an error created by `Run` is returned only when no entry
    matches. -/
theorem run_not_found {σ α ε : Type} (U : Unicode) (a : App σ α ε) (cmd : GoString)
    (args : List α) (w : σ) :
    ((∀ o ∈ a.Options, EqualFold U o.Cmd cmd = false) →
      a.Run U cmd args w =
        ⟨a, w, [], .value (some (.created
          (str "Could not find cmd: '" ++ cmd ++ str "' for execution")))⟩) ∧
    cmd <:+: str "Could not find cmd: '" ++ cmd ++ str "' for execution" ∧
    (∀ msg, (a.Run U cmd args w).ret = .value (some (.created msg)) →
      ∀ o ∈ a.Options, EqualFold U o.Cmd cmd = false) := by
  refine ⟨fun h => run_eq_of_no_match U a cmd args w h, ⟨_, _, rfl⟩, ?_⟩
  intro msg hret
  by_contra hcon
  have hex : ∃ e ∈ a.Options, (fun e : CommandOption σ α ε => EqualFold U e.Cmd cmd) e = true := by
    by_contra hnone
    apply hcon
    intro o ho
    by_contra hne
    exact hnone ⟨o, ho, by simpa using hne⟩
  obtain ⟨pre, o, post, hsplit, hpre, ho⟩ := exists_first_split _ a.Options hex
  rw [run_eq_of_first_match U a cmd args w pre post o hsplit hpre ho] at hret
  cases hf : o.Func with
  | none => simp [hf] at hret
  | some f =>
    simp only [hf] at hret
    cases hres : (f args w).2 with
    | none => simp [hres] at hret
    | some e => simp [hres] at hret

/-- C3, witness: `Run("nope")` on the commands `greet` and `GREET` calls nothing and
    returns the not-found error naming `nope`. -/
theorem run_not_found_witness :
    (∀ o ∈ greetApp.Options, EqualFold dotlessAndKelvin o.Cmd (str "nope") = false) ∧
    greetApp.Run dotlessAndKelvin (str "nope") [] 0 =
      ⟨greetApp, 0, [], .value (some (.created
        (str "Could not find cmd: '" ++ str "nope" ++ str "' for execution")))⟩ :=
  have h : ∀ o ∈ greetApp.Options, EqualFold dotlessAndKelvin o.Cmd (str "nope") = false := by
    decide
  ⟨h, (run_not_found dotlessAndKelvin greetApp (str "nope") [] 0).1 h⟩

/-! ## Registration -/

/-- `Append` stores the given entries behind the entries already there. -/
theorem append_eq {σ α ε : Type} (co : CommandOptions σ α ε) (opts : List (CommandOption σ α ε)) :
    CommandOptions.Append co opts = co ++ opts := by
  unfold CommandOptions.Append
  split
  · rename_i h
    rw [List.length_eq_zero.mp h]
  · rfl

/-- C4. `AddOption` returns an error exactly when the name is empty or the handler is
    nil, and whenever it returns an error the `App` is the one before the call: same
    entries, same order, same length. -/
theorem addOption_error_iff {σ α ε : Type} (a : App σ α ε) (cmd : GoString)
    (f : OptionFunc σ α ε) :
    ((a.AddOption cmd f).2 ≠ none ↔ (cmd = [] ∨ f = none)) ∧
    ((a.AddOption cmd f).2 ≠ none →
      (a.AddOption cmd f).1 = a ∧ (a.AddOption cmd f).1.Options = a.Options ∧
      (a.AddOption cmd f).1.Options.length = a.Options.length) := by
  unfold App.AddOption
  by_cases hc : cmd = []
  · simp [hc]
  · cases f with
    | none => simp [hc]
    | some g => simp [hc]

/-- C5. `AddOption` with a non-empty name and a handler that is not nil returns nil,
    and the registry afterwards is the registry before followed by the one entry
    with that name, an empty description and that handler; the earlier entries and
    every other field of the `App` are as before. -/
theorem addOption_appends {σ α ε : Type} (a : App σ α ε) (cmd : GoString)
    (f : OptionFunc σ α ε) (hcmd : cmd ≠ []) (hf : f ≠ none) :
    (a.AddOption cmd f).2 = none ∧
    (a.AddOption cmd f).1.Options = a.Options ++ [{ Cmd := cmd, Description := [], Func := f }] ∧
    (a.AddOption cmd f).1.Options.take a.Options.length = a.Options ∧
    (a.AddOption cmd f).1.Name = a.Name ∧
    (a.AddOption cmd f).1.Description = a.Description ∧
    (a.AddOption cmd f).1.MaxTerminalWidth = a.MaxTerminalWidth ∧
    (a.AddOption cmd f).1.margin = a.margin ∧
    (a.AddOption cmd f).1.delimiter = a.delimiter := by
  cases f with
  | none => exact absurd rfl hf
  | some g => simp [App.AddOption, hcmd, append_eq]

/-- C5, witness: `AddOption("hello", f)` on the empty `App` of width 80. -/
theorem addOption_appends_witness :
    str "hello" ≠ [] ∧ some countCalls ≠ (none : OptionFunc Nat Nat Nat) ∧
    (emptyApp.AddOption (str "hello") (some countCalls)).2 = none ∧
    (emptyApp.AddOption (str "hello") (some countCalls)).1.Options =
      emptyApp.Options ++
        [{ Cmd := str "hello", Description := [], Func := some countCalls }] ∧
    (emptyApp.AddOption (str "hello") (some countCalls)).1.Options.take
      emptyApp.Options.length = emptyApp.Options ∧
    (emptyApp.AddOption (str "hello") (some countCalls)).1.Name = emptyApp.Name ∧
    (emptyApp.AddOption (str "hello") (some countCalls)).1.Description = emptyApp.Description ∧
    (emptyApp.AddOption (str "hello") (some countCalls)).1.MaxTerminalWidth =
      emptyApp.MaxTerminalWidth ∧
    (emptyApp.AddOption (str "hello") (some countCalls)).1.margin = emptyApp.margin ∧
    (emptyApp.AddOption (str "hello") (some countCalls)).1.delimiter = emptyApp.delimiter :=
  ⟨by decide, Option.some_ne_none _,
    addOption_appends emptyApp (str "hello") (some countCalls) (by decide)
      (Option.some_ne_none _)⟩

/-- C6. `Append` on any registry, the empty one included, and `App.Add` alike leave
    the registry equal to the old entries followed by the given ones in the given
    order; nothing is validated, so an entry with an empty name and a nil handler,
    which `AddOption` refuses, is stored by `Add`. -/
theorem append_stores_all {σ α ε : Type} (a : App σ α ε) (r : CommandOptions σ α ε)
    (es : List (CommandOption σ α ε)) :
    CommandOptions.Append r es = r ++ es ∧
    (CommandOptions.Append r es).length = r.length + es.length ∧
    CommandOptions.Append [] es = es ∧
    (a.Add es).Options = a.Options ++ es ∧
    (a.Add es).Options.length = a.Options.length + es.length ∧
    a.Add es = { a with Options := a.Options ++ es } ∧
    (∀ d : GoString, (a.Add [{ Cmd := [], Description := d, Func := none }]).Options =
        a.Options ++ [{ Cmd := [], Description := d, Func := none }] ∧
      (a.AddOption [] none).1.Options = a.Options ∧ (a.AddOption [] none).2 ≠ none) := by
  refine ⟨append_eq r es, by simp [append_eq], by simp [append_eq], by simp [App.Add, append_eq],
    by simp [App.Add, append_eq], by simp [App.Add, append_eq], ?_⟩
  intro d
  simp [App.Add, App.AddOption, append_eq]

/-! ## The map view of the registry -/

/-- Searching a filtered list finds the same element when the filter keeps everything
    the search accepts. -/
theorem find?_filter_of_imp {β : Type} (p q : β → Bool) (h : ∀ x, p x = true → q x = true) :
    ∀ l : List β, (l.filter q).find? p = l.find? p
  | [] => rfl
  | x :: l => by
    have ih := find?_filter_of_imp p q h l
    by_cases hq : q x = true
    · rw [List.filter_cons_of_pos hq, List.find?_cons, List.find?_cons, ih]
    · have hp : p x = false := by
        by_contra hne
        exact hq (h x (by simpa using hne))
      rw [List.filter_cons_of_neg hq, List.find?_cons, hp, ih]

/-- A lookup after an assignment. -/
theorem GoMap.get_set {V : Type} (m : GoMap V) (k k' : GoString) (v : V) :
    (m.set k' v).get k = if k' = k then some v else m.get k := by
  unfold GoMap.set GoMap.get
  by_cases h : k' = k
  · simp [h]
  · have hb : (k' == k) = false := by simpa using h
    rw [List.find?_cons, if_neg h]
    simp only [hb]
    rw [find?_filter_of_imp]
    intro x hx
    have hxk : x.1 = k := by simpa using hx
    have : ¬ x.1 = k' := fun hc => h (hc ▸ hxk)
    simpa using this

/-- The keys after an assignment. -/
theorem GoMap.mem_keys_set {V : Type} (m : GoMap V) (k k' : GoString) (v : V) :
    k ∈ (m.set k' v).keys ↔ k = k' ∨ k ∈ m.keys := by
  unfold GoMap.set GoMap.keys
  rw [List.map_cons, List.mem_cons]
  constructor
  · rintro (h | h)
    · exact Or.inl h
    · obtain ⟨x, hx, rfl⟩ := List.mem_map.mp h
      exact Or.inr (List.mem_map.mpr ⟨x, (List.mem_filter.mp hx).1, rfl⟩)
  · rintro (h | h)
    · exact Or.inl h
    · by_cases hk : k = k'
      · exact Or.inl hk
      · obtain ⟨x, hx, rfl⟩ := List.mem_map.mp h
        exact Or.inr (List.mem_map.mpr ⟨x, List.mem_filter.mpr ⟨hx, by simpa using hk⟩, rfl⟩)

/-- An assignment keeps the keys pairwise different. -/
theorem GoMap.nodup_keys_set {V : Type} (m : GoMap V) (k' : GoString) (v : V)
    (h : m.keys.Nodup) : (m.set k' v).keys.Nodup := by
  unfold GoMap.set GoMap.keys at *
  rw [List.map_cons, List.nodup_cons]
  constructor
  · intro hmem
    obtain ⟨x, hx, hxk⟩ := List.mem_map.mp hmem
    have := (List.mem_filter.mp hx).2
    simp [hxk] at this
  · exact h.sublist ((List.filter_sublist m).map Prod.fst)

/-- The keys of the map built by the loop of `AsMap`. -/
theorem mem_keys_asMapLoop {σ α ε : Type} (k : GoString) :
    ∀ (l : List (CommandOption σ α ε)) (m : GoMap (CommandOption σ α ε)),
      k ∈ (asMapLoop l m).keys ↔ k ∈ m.keys ∨ ∃ o ∈ l, o.Cmd = k
  | [], m => by simp [asMapLoop]
  | o :: l, m => by
    rw [asMapLoop, mem_keys_asMapLoop k l, GoMap.mem_keys_set]
    constructor
    · rintro ((h | h) | ⟨p, hp, hpk⟩)
      · exact Or.inr ⟨o, by simp, h.symm⟩
      · exact Or.inl h
      · exact Or.inr ⟨p, by simp [hp], hpk⟩
    · rintro (h | ⟨p, hp, hpk⟩)
      · exact Or.inl (Or.inr h)
      · rcases List.mem_cons.mp hp with rfl | hp
        · exact Or.inl (Or.inl hpk.symm)
        · exact Or.inr ⟨p, hp, hpk⟩

/-- The loop of `AsMap` keeps the keys pairwise different. -/
theorem nodup_keys_asMapLoop {σ α ε : Type} :
    ∀ (l : List (CommandOption σ α ε)) (m : GoMap (CommandOption σ α ε)),
      m.keys.Nodup → (asMapLoop l m).keys.Nodup
  | [], _, h => h
  | o :: l, m, h => nodup_keys_asMapLoop l _ (GoMap.nodup_keys_set m o.Cmd o h)

/-- Entries with another name do not change what the map holds for `k`. -/
theorem get_asMapLoop_of_ne {σ α ε : Type} (k : GoString) :
    ∀ (l : List (CommandOption σ α ε)) (m : GoMap (CommandOption σ α ε)),
      (∀ o ∈ l, o.Cmd ≠ k) → (asMapLoop l m).get k = m.get k
  | [], _, _ => rfl
  | o :: l, m, h => by
    rw [asMapLoop, get_asMapLoop_of_ne k l _ (fun p hp => h p (by simp [hp])), GoMap.get_set,
      if_neg (h o (by simp))]

/-- The loop of `AsMap` over a concatenation. -/
theorem asMapLoop_append {σ α ε : Type} :
    ∀ (l₁ l₂ : List (CommandOption σ α ε)) (m : GoMap (CommandOption σ α ε)),
      asMapLoop (l₁ ++ l₂) m = asMapLoop l₂ (asMapLoop l₁ m)
  | [], _, _ => rfl
  | o :: l₁, l₂, m => by
    rw [List.cons_append, asMapLoop, asMapLoop, asMapLoop_append l₁ l₂]

/-- C7. The map `AsMap` returns has exactly the names occurring in the registry as its
    keys, compared byte by byte; it holds, for each name, the last entry in insertion
    order with that name; and for two entries with one name it is the single binding
    of that name to the second entry. -/
theorem asMap_last_wins {σ α ε : Type} (co : CommandOptions σ α ε) :
    (∀ k, k ∈ co.AsMap.keys ↔ ∃ o ∈ co, o.Cmd = k) ∧
    co.AsMap.keys.Nodup ∧
    (∀ pre o post, co = pre ++ o :: post → (∀ p ∈ post, p.Cmd ≠ o.Cmd) →
      co.AsMap.get o.Cmd = some o) ∧
    (∀ k, (∀ o ∈ co, o.Cmd ≠ k) → co.AsMap.get k = none) ∧
    (∀ e₁ e₂ : CommandOption σ α ε, e₁.Cmd = e₂.Cmd →
      CommandOptions.AsMap [e₁, e₂] = [(e₂.Cmd, e₂)]) := by
  refine ⟨?_, ?_, ?_, ?_, ?_⟩
  · intro k
    unfold CommandOptions.AsMap
    rw [mem_keys_asMapLoop]
    simp [GoMap.keys]
  · exact nodup_keys_asMapLoop co [] (by simp [GoMap.keys])
  · intro pre o post hco hpost
    unfold CommandOptions.AsMap
    rw [hco, asMapLoop_append, asMapLoop, get_asMapLoop_of_ne o.Cmd post _ hpost, GoMap.get_set,
      if_pos rfl]
  · intro k hk
    unfold CommandOptions.AsMap
    rw [get_asMapLoop_of_ne k co [] hk]
    rfl
  · intro e₁ e₂ he
    simp [CommandOptions.AsMap, asMapLoop, GoMap.set, he]

/-! ## The cached margin and the short branch of `reshapeText` -/

/-- An `int` operation whose exact result is representable does not wrap. -/
theorem wrapInt_of_mem (x : Int) (hlo : minInt ≤ x) (hhi : x ≤ maxInt) : wrapInt x = x := by
  unfold wrapInt
  unfold minInt at hlo
  unfold maxInt at hhi
  omega

/-- The first loop of `longestCmdIdx` computes the greatest name length, at least the
    starting value. -/
theorem longestLoop_eq {σ α ε : Type} :
    ∀ (l : List (CommandOption σ α ε)) (m : Int), 0 ≤ m →
      longestLoop l m = max m (longestName l : Int)
  | [], m, hm => by simp [longestLoop, longestName, hm]
  | o :: l, m, hm => by
    have hlen : (0 : Int) ≤ len o.Cmd := Int.ofNat_nonneg _
    rw [longestLoop, longestLoop_eq l _ (by split_ifs <;> omega)]
    have hcons : (longestName (o :: l) : Int) = max (o.Cmd.length : Int) (longestName l : Int) := by
      simp [longestName]
    rw [hcons]
    unfold len
    have h0 : (0 : Int) ≤ (longestName l : Int) := Int.ofNat_nonneg _
    split_ifs <;> omega

/-- The value `longestCmdIdx` returns. -/
theorem longestCmdIdx_eq {σ α ε : Type} (a : App σ α ε) :
    a.longestCmdIdx = min (longestName a.Options : Int) (isub a.MaxTerminalWidth 30) := by
  unfold App.longestCmdIdx
  rw [longestLoop_eq _ 0 (Int.le_refl 0)]
  simp only
  have h0 : (0 : Int) ≤ (longestName a.Options : Int) := Int.ofNat_nonneg _
  split_ifs <;> omega

/-- `reshapeText` leaves the `App` as `computeMargin` leaves it. -/
theorem reshapeText_app {σ α ε : Type} (a : App σ α ε) (text : GoString) :
    (a.reshapeText text).1 = a.computeMargin := by
  unfold App.reshapeText
  simp only
  split_ifs <;> rfl

/-- C8, as amended. For an `App` whose cached margin is 0, the margin cached by a call of
    `reshapeText` is the smaller of `L`, the greatest byte length of a command name (0
    for the empty registry), and the `int` value of `MaxTerminalWidth - 30`; when that
    subtraction does not overflow, that is `min(L, MaxTerminalWidth - 30)`, and for
    `MaxTerminalWidth` below 30 it is the negative number `MaxTerminalWidth - 30`: the
    value is not clamped. -/
theorem margin_of_first_reshape {σ α ε : Type} (a : App σ α ε) (text : GoString)
    (h0 : a.margin = 0) :
    (a.reshapeText text).1.margin =
      min (longestName a.Options : Int) (isub a.MaxTerminalWidth 30) ∧
    (minInt + 30 ≤ a.MaxTerminalWidth → a.MaxTerminalWidth ≤ maxInt →
      (a.reshapeText text).1.margin =
        min (longestName a.Options : Int) (a.MaxTerminalWidth - 30)) ∧
    (minInt + 30 ≤ a.MaxTerminalWidth → a.MaxTerminalWidth < 30 →
      (a.reshapeText text).1.margin = a.MaxTerminalWidth - 30 ∧
      (a.reshapeText text).1.margin < 0) := by
  have hm : (a.reshapeText text).1.margin =
      min (longestName a.Options : Int) (isub a.MaxTerminalWidth 30) := by
    rw [reshapeText_app]
    unfold App.computeMargin
    rw [if_pos h0]
    exact longestCmdIdx_eq a
  have hL : (0 : Int) ≤ (longestName a.Options : Int) := Int.ofNat_nonneg _
  refine ⟨hm, ?_, ?_⟩
  · intro hlo hhi
    rw [hm]
    unfold isub
    rw [wrapInt_of_mem _ (by unfold minInt at *; omega) (by unfold maxInt at *; omega)]
  · intro hlo hhi
    rw [hm]
    unfold isub
    rw [wrapInt_of_mem _ (by unfold minInt at *; omega) (by unfold maxInt at *; omega)]
    omega

/-- C8, witness: width 20 and the commands `greet` and `GREET` give the margin -10. -/
theorem margin_of_first_reshape_witness :
    { greetApp with MaxTerminalWidth := 20 }.margin = 0 ∧
    ({ greetApp with MaxTerminalWidth := 20 }.reshapeText (str "short")).1.margin =
      min (longestName greetApp.Options : Int) (isub 20 30) ∧
    (minInt + 30 ≤ 20 → (20 : Int) ≤ maxInt →
      ({ greetApp with MaxTerminalWidth := 20 }.reshapeText (str "short")).1.margin =
        min (longestName greetApp.Options : Int) (20 - 30)) ∧
    (minInt + 30 ≤ 20 → (20 : Int) < 30 →
      ({ greetApp with MaxTerminalWidth := 20 }.reshapeText (str "short")).1.margin = 20 - 30 ∧
      ({ greetApp with MaxTerminalWidth := 20 }.reshapeText (str "short")).1.margin < 0) :=
  ⟨rfl, margin_of_first_reshape { greetApp with MaxTerminalWidth := 20 } (str "short") rfl⟩

/-- C8, counterexample: with the smallest `int` as `MaxTerminalWidth`, below 30, the
    subtraction `MaxTerminalWidth - 30` wraps around to a large positive number, and
    the margin cached by the first `reshapeText` is 3, the length of the one command
    name, not a negative number. -/
theorem margin_not_negative_at_smallest_width :
    narrowestApp.margin = 0 ∧ narrowestApp.MaxTerminalWidth < 30 ∧
    longestName narrowestApp.Options = 3 ∧
    isub narrowestApp.MaxTerminalWidth 30 = 9223372036854775778 ∧
    (narrowestApp.reshapeText (str "short")).1.margin = 3 ∧
    min (3 : Int) (narrowestApp.MaxTerminalWidth - 30) = -9223372036854775838 := by
  decide

/-- C9, the code at the failing input: an `App` of width 80 with no command caches the
    margin 0 on its first `reshapeText`; after `AddOption("hello", f)` the next
    `reshapeText` computes the margin again and caches 5. The same happens through
    `ShowHelp` for an `App` whose only command, stored by `Add`, has an empty name. -/
theorem margin_recomputed_after_zero :
    (emptyApp.reshapeText (str "short")).1.margin = 0 ∧
    (((emptyApp.reshapeText (str "short")).1.AddOption (str "hello") (some countCalls)).1.reshapeText
      (str "short")).1.margin = 5 ∧
    namelessApp.ShowHelp.1.margin = 0 ∧
    ((namelessApp.ShowHelp.1.AddOption (str "hello") (some countCalls)).1.ShowHelp).1.margin = 5 := by
  decide

/-- Once the cached margin is not 0, `reshapeText` does not touch the `App`. -/
theorem reshapeText_keeps_nonzero_margin {σ α ε : Type} (a : App σ α ε) (text : GoString)
    (h : a.margin ≠ 0) : (a.reshapeText text).1 = a := by
  rw [reshapeText_app]
  unfold App.computeMargin
  rw [if_neg h]

/-- The function `padSpaces` returns `num` spaces, none for a negative `num`. -/
theorem padSpaces_eq (num : Int) : padSpaces num = List.replicate num.toNat (0x20 : Byte) := by
  unfold padSpaces padChar
  have hloop : ∀ (n : Nat) (s : GoString),
      padCharLoop 0x20 n s = s ++ List.replicate n (0x20 : Byte) := by
    intro n
    induction n with
    | zero => intro s; simp [padCharLoop]
    | succ n ih =>
      intro s
      have henc : EncodeRune 0x20 = [(0x20 : Byte)] := by decide
      rw [padCharLoop, ih, henc, List.replicate_succ, List.append_assoc]
      rfl
  rw [hloop]
  rfl

/-- A text shorter than the threshold `computeMargin` leaves is returned behind 30
    spaces, for every state of the `App`. -/
theorem reshapeText_below_threshold {σ α ε : Type} (a : App σ α ε) (text : GoString)
    (h : len text < a.computeMargin.threshold) :
    (a.reshapeText text).2 = List.replicate 30 (0x20 : Byte) ++ text := by
  unfold App.reshapeText
  simp only [if_pos h, padSpaces_eq]
  rfl

/-- After `computeMargin` the cached delimiter is the three bytes ` - `, for an `App`
    that has nothing cached yet or has that delimiter cached. -/
theorem computeMargin_delimiter {σ α ε : Type} (a : App σ α ε)
    (hcache : a.margin = 0 ∨ a.delimiter = str " - ") :
    a.computeMargin.delimiter = str " - " := by
  unfold App.computeMargin
  by_cases hz : a.margin = 0
  · rw [if_pos hz]
  · rw [if_neg hz]
    rcases hcache with h1 | h1
    · exact absurd h1 hz
    · exact h1

/-- `computeMargin` does not change `MaxTerminalWidth`. -/
theorem computeMargin_width {σ α ε : Type} (a : App σ α ε) :
    a.computeMargin.MaxTerminalWidth = a.MaxTerminalWidth := by
  unfold App.computeMargin
  split_ifs <;> rfl

/-- C10. For an `App` that has nothing cached yet or has the delimiter ` - ` cached (as
    `computeMargin`, the only writer of the two cached fields, leaves every `App`), the
    threshold of `reshapeText` is `MaxTerminalWidth - margin - 3` with the margin
    `computeMargin` leaves, and a text whose byte length is below it is returned
    unchanged behind exactly 30 spaces, whatever the margin. -/
theorem reshapeText_short {σ α ε : Type} (a : App σ α ε) (text : GoString)
    (hcache : a.margin = 0 ∨ a.delimiter = str " - ")
    (h : len text < isub (isub a.MaxTerminalWidth a.computeMargin.margin) 3) :
    (a.reshapeText text).2 = List.replicate 30 (0x20 : Byte) ++ text ∧
    a.computeMargin.delimiter = str " - " ∧
    a.computeMargin.threshold = isub (isub a.MaxTerminalWidth a.computeMargin.margin) 3 := by
  have hd := computeMargin_delimiter a hcache
  have ht : a.computeMargin.threshold =
      isub (isub a.MaxTerminalWidth a.computeMargin.margin) 3 := by
    unfold App.threshold
    rw [hd, computeMargin_width]
    rfl
  exact ⟨reshapeText_below_threshold a text (by rw [ht]; exact h), hd, ht⟩

/-- C10, witness: with `MaxTerminalWidth = 80` and no command, `reshapeText("short")` is
    30 spaces followed by `short`. -/
theorem reshapeText_short_witness :
    (emptyApp.margin = 0 ∨ emptyApp.delimiter = str " - ") ∧
    len (str "short") < isub (isub emptyApp.MaxTerminalWidth emptyApp.computeMargin.margin) 3 ∧
    (emptyApp.reshapeText (str "short")).2 = List.replicate 30 (0x20 : Byte) ++ str "short" ∧
    emptyApp.computeMargin.delimiter = str " - " ∧
    emptyApp.computeMargin.threshold =
      isub (isub emptyApp.MaxTerminalWidth emptyApp.computeMargin.margin) 3 :=
  ⟨Or.inl rfl, by decide, reshapeText_short emptyApp (str "short") (Or.inl rfl) (by decide)⟩

/-! ## The long branch of `reshapeText` -/

/-- The length of the string `padSpaces` returns. -/
theorem len_padSpaces (num : Int) : len (padSpaces num) = max num 0 := by
  rw [padSpaces_eq]
  unfold len
  rw [List.length_replicate]
  omega

/-- Trimming a string of spaces leaves nothing. -/
theorem trim_spaces (n : Nat) : Trim (List.replicate n (0x20 : Byte)) = [] := by
  unfold Trim
  have h : (List.replicate n (0x20 : Byte)).dropWhile (· == 0x20) = [] := by
    rw [List.dropWhile_eq_nil_iff]
    intro x hx
    rw [List.eq_of_mem_replicate hx]
    rfl
  rw [h]
  rfl

/-- `strings.Split(s, " ")` returns at least one piece. -/
theorem split_ne_nil : ∀ s : GoString, Split s ≠ []
  | [] => by simp [Split]
  | b :: s => by
    unfold Split
    split_ifs
    · simp
    · split <;> simp

/-- `strings.Split(s, " ")` returns one piece more than `s` has spaces. -/
theorem length_split : ∀ s : GoString, (Split s).length = s.count 0x20 + 1
  | [] => by simp [Split]
  | b :: s => by
    have ih := length_split s
    unfold Split
    by_cases hb : b = 0x20
    · rw [if_pos hb, hb, List.length_cons, ih, List.count_cons_self]
    · rw [if_neg hb, List.count_cons_of_ne (Ne.symm hb)]
      split
      · rename_i hnil
        exact absurd hnil (split_ne_nil s)
      · rename_i w ws hsplit
        rw [hsplit] at ih
        simpa using ih

/-- No piece of `strings.Split(s, " ")` is longer than `s`. -/
theorem length_le_of_mem_split : ∀ (s : GoString) (w : GoString), w ∈ Split s →
    w.length ≤ s.length
  | [], w, h => by
    simp [Split] at h
    simp [h]
  | b :: s, w, h => by
    have ih := length_le_of_mem_split s
    unfold Split at h
    by_cases hb : b = 0x20
    · rw [if_pos hb] at h
      rcases List.mem_cons.mp h with rfl | h
      · simp
      · have := ih w h
        simp only [List.length_cons]
        omega
    · rw [if_neg hb] at h
      split at h
      · rename_i hnil
        exact absurd hnil (split_ne_nil s)
      · rename_i v vs hsplit
        rcases List.mem_cons.mp h with rfl | h
        · have := ih v (by rw [hsplit]; simp)
          simp only [List.length_cons]
          omega
        · have := ih w (by rw [hsplit]; simp [h])
          simp only [List.length_cons]
          omega

/-- Joining empty strings leaves the separators only. -/
theorem join_empties (sep : Byte) :
    ∀ n : Nat, Join (List.replicate (n + 1) []) [sep] = List.replicate n sep
  | 0 => rfl
  | n + 1 => by
    have ih := join_empties sep n
    rw [List.replicate_succ] at ih ⊢
    rw [List.replicate_succ, Join, ih]
    rfl

/-- The loop of `reshapeText` when no word passes the fit test: every word closes the
    current line and is itself dropped, the new line being the padding alone. -/
theorem wrapLoop_no_fit (threshold : Int) :
    ∀ (words : List GoString) (pt : GoString) (paragraphs : List GoString),
      (∀ w ∈ words, ¬ iadd (len pt) (len w) < threshold) →
      (∀ w ∈ words, ¬ iadd (len (padSpaces threshold)) (len w) < threshold) →
      wrapLoop threshold words pt paragraphs =
        paragraphs ++ (match words with
          | [] => []
          | _ :: rest => Trim pt :: List.replicate rest.length (Trim (padSpaces threshold)))
  | [], _, paragraphs, _, _ => by simp [wrapLoop]
  | w :: rest, pt, paragraphs, h1, h2 => by
    rw [wrapLoop, if_neg (h1 w (by simp)),
      wrapLoop_no_fit threshold rest (padSpaces threshold) _
        (fun v hv => h2 v (by simp [hv])) (fun v hv => h2 v (by simp [hv]))]
    cases rest with
    | nil => simp
    | cons v rest => simp [List.replicate_succ]

/-- The fit test of `reshapeText` fails for a word measured against the padding line,
    when the two lengths add up without overflow. -/
theorem no_fit_after_padding (threshold : Int) (word : GoString)
    (h : len (padSpaces threshold) + len word ≤ maxInt) :
    ¬ iadd (len (padSpaces threshold)) (len word) < threshold := by
  have hw : (0 : Int) ≤ len word := Int.ofNat_nonneg _
  have hp := len_padSpaces threshold
  unfold iadd
  rw [wrapInt_of_mem _ (by unfold minInt; omega) h]
  omega

/-- Trimming the padding line leaves nothing. -/
theorem trim_padSpaces (num : Int) : Trim (padSpaces num) = [] := by
  rw [padSpaces_eq, trim_spaces]

/-- The long branch of `reshapeText` when no word passes the fit test: as many
    newlines as the text has spaces. -/
theorem long_branch_eq (threshold : Int) (text : GoString)
    (h : ∀ w ∈ Split text, ¬ iadd (len (padSpaces threshold)) (len w) < threshold) :
    Join (wrapLoop threshold (Split text) (padSpaces threshold) []) (str "\n") =
      List.replicate (text.count 0x20) (0x0A : Byte) := by
  rw [wrapLoop_no_fit threshold (Split text) (padSpaces threshold) [] h h]
  have hlen := length_split text
  cases hsplit : Split text with
  | nil => exact absurd hsplit (split_ne_nil text)
  | cons w rest =>
    rw [hsplit, List.length_cons] at hlen
    have hrest : rest.length = text.count 0x20 := by omega
    simp only [List.nil_append, trim_padSpaces]
    rw [← List.replicate_succ, hrest]
    exact join_empties 0x0A (text.count 0x20)

/-- C17. For every state of the `App` and every text at least as long as the threshold
    (the text and the padding line together having at most `maxInt` bytes, as strings
    held in memory have), the fit test `len(pt)+len(word) < threshold` fails for every
    word, and `reshapeText` returns newline characters only, as many as the text has
    spaces, which is the number of pieces of `strings.Split(text, " ")` minus one:
    nothing of the description is in the output. -/
theorem reshapeText_long_only_newlines {σ α ε : Type} (a : App σ α ε) (text : GoString)
    (hlong : a.computeMargin.threshold ≤ len text)
    (hmem : len (padSpaces a.computeMargin.threshold) + len text ≤ maxInt) :
    (∀ word ∈ Split text,
      ¬ iadd (len (padSpaces a.computeMargin.threshold)) (len word) <
        a.computeMargin.threshold) ∧
    (a.reshapeText text).2 = List.replicate (text.count 0x20) (0x0A : Byte) ∧
    (Split text).length - 1 = text.count 0x20 := by
  have hfit : ∀ word ∈ Split text,
      ¬ iadd (len (padSpaces a.computeMargin.threshold)) (len word) <
        a.computeMargin.threshold := by
    intro word hword
    apply no_fit_after_padding
    have hle := length_le_of_mem_split text word hword
    unfold len at hmem ⊢
    omega
  refine ⟨hfit, ?_, by rw [length_split]; rfl⟩
  unfold App.reshapeText
  simp only [if_neg (not_lt.mpr hlong)]
  exact long_branch_eq _ text hfit

/-- C17, witness: the description of 100 bytes in ten words, at width 80 (threshold 77),
    comes back as nine newlines. -/
theorem reshapeText_long_only_newlines_witness :
    emptyApp.computeMargin.threshold ≤ len longDescription ∧
    len (padSpaces emptyApp.computeMargin.threshold) + len longDescription ≤ maxInt ∧
    (∀ word ∈ Split longDescription,
      ¬ iadd (len (padSpaces emptyApp.computeMargin.threshold)) (len word) <
        emptyApp.computeMargin.threshold) ∧
    (emptyApp.reshapeText longDescription).2 =
      List.replicate (longDescription.count 0x20) (0x0A : Byte) ∧
    (Split longDescription).length - 1 = longDescription.count 0x20 :=
  ⟨by decide, by decide,
    reshapeText_long_only_newlines emptyApp longDescription (by decide) (by decide)⟩

/-- C11, the code at the failing input: at width 80 the threshold is 77 (72 with the
    two five-letter commands), and `reshapeText` turns the description of 100 bytes in
    ten words into nine newlines: the lines it joins are all empty, none begins with
    spaces and none holds a word. `ShowHelp` prints the same nine newlines for an `App`
    whose one command has that description. -/
theorem reshapeText_long_description_is_blank :
    emptyApp.MaxTerminalWidth = 80 ∧ len longDescription = 100 ∧
    emptyApp.computeMargin.threshold = 77 ∧
    (emptyApp.reshapeText longDescription).2 = List.replicate 9 (0x0A : Byte) ∧
    greetApp.MaxTerminalWidth = 80 ∧ greetApp.computeMargin.threshold = 72 ∧
    (greetApp.reshapeText longDescription).2 = List.replicate 9 (0x0A : Byte) ∧
    wrapApp.ShowHelp.2 = List.replicate 9 (0x0A : Byte) := by
  decide

/-- C12, the code at the failing input: the first word of the description does not
    fit, the empty line is pushed, and the loop goes on with the padding alone as its
    new line, the word being dropped; so it goes for every word, and the completed
    lines are ten empty strings. -/
theorem wrapLoop_drops_the_word :
    Split longDescription =
      [str "aaaaaaaaa", str "bbbbbbbbb", str "ccccccccc", str "ddddddddd", str "eeeeeeeee",
       str "fffffffff", str "ggggggggg", str "hhhhhhhhh", str "iiiiiiiii", str "jjjjjjjjjj"] ∧
    wrapLoop 77 (str "aaaaaaaaa" :: (Split longDescription).tail) (padSpaces 77) [] =
      wrapLoop 77 (Split longDescription).tail (padSpaces 77) [[]] ∧
    wrapLoop 77 (Split longDescription) (padSpaces 77) [] = List.replicate 10 [] ∧
    (emptyApp.reshapeText longDescription).2 = List.replicate 9 (0x0A : Byte) := by
  decide

/-! ## The per-command help text -/

/-- `computeMargin` changes neither the registry nor the width, so `longestCmdIdx`
    returns the same value after it. -/
theorem longestCmdIdx_computeMargin {σ α ε : Type} (a : App σ α ε) :
    a.computeMargin.longestCmdIdx = a.longestCmdIdx := by
  unfold App.computeMargin
  split_ifs <;> rfl

/-- `computeMargin` on an `App` with nothing cached. -/
theorem computeMargin_of_zero {σ α ε : Type} (a : App σ α ε) (h : a.margin = 0) :
    a.computeMargin = { a with margin := a.longestCmdIdx, delimiter := str " - " } := by
  unfold App.computeMargin
  rw [if_pos h]

/-- `computeMargin` on an `App` with a cached margin. -/
theorem computeMargin_of_ne {σ α ε : Type} (a : App σ α ε) (h : a.margin ≠ 0) :
    a.computeMargin = a := by
  unfold App.computeMargin
  rw [if_neg h]

/-- A second `computeMargin` changes nothing. -/
theorem computeMargin_idem {σ α ε : Type} (a : App σ α ε) :
    a.computeMargin.computeMargin = a.computeMargin := by
  have hl := longestCmdIdx_computeMargin a
  by_cases h0 : a.margin = 0
  · have ha := computeMargin_of_zero a h0
    by_cases hL : a.longestCmdIdx = 0
    · have hm : a.computeMargin.margin = 0 := by rw [ha]; exact hL
      rw [computeMargin_of_zero a.computeMargin hm, hl, ha]
    · have hm : a.computeMargin.margin ≠ 0 := by rw [ha]; exact hL
      exact computeMargin_of_ne a.computeMargin hm
  · rw [computeMargin_of_ne a h0, computeMargin_of_ne a h0]

/-- `reshapeText` after `computeMargin` is `reshapeText`. -/
theorem reshapeText_computeMargin {σ α ε : Type} (a : App σ α ε) (text : GoString) :
    a.computeMargin.reshapeText text = a.reshapeText text := by
  unfold App.reshapeText
  simp only [computeMargin_idem]

/-- The string `reshapeText` returns depends on the `App` through the threshold only. -/
theorem reshapeText_out {σ α ε : Type} (a : App σ α ε) (text : GoString) :
    (a.reshapeText text).2 =
      if len text < a.computeMargin.threshold then padSpaces 30 ++ text
      else Join (wrapLoop a.computeMargin.threshold (Split text)
        (padSpaces a.computeMargin.threshold) []) (str "\n") := by
  unfold App.reshapeText
  simp only
  split_ifs <;> rfl

/-- The loop of `showCmdHelp`, started on an `App` that `computeMargin` leaves as it
    is, appends the reshaped descriptions in order and leaves that `App`. -/
theorem showCmdHelpLoop_eq {σ α ε : Type} (b : App σ α ε) (hb : b.computeMargin = b) :
    ∀ (l : List (CommandOption σ α ε)) (text : GoString),
      showCmdHelpLoop l b text =
        (b, text ++ (l.map fun o => (b.reshapeText (Trim o.Description)).2).flatten)
  | [], text => by simp [showCmdHelpLoop]
  | o :: l, text => by
    have hstate : (b.reshapeText (Trim o.Description)).1 = b := by
      rw [reshapeText_app, hb]
    rw [showCmdHelpLoop, hstate, showCmdHelpLoop_eq b hb l]
    simp [List.append_assoc]

/-- The text `showCmdHelp` returns, and the `App` it leaves. -/
theorem showCmdHelp_eq {σ α ε : Type} (a : App σ α ε) :
    a.showCmdHelp.2 = (a.Options.map fun o => (a.reshapeText (Trim o.Description)).2).flatten ∧
    a.showCmdHelp.1 = if a.Options.isEmpty then a else a.computeMargin := by
  unfold App.showCmdHelp
  cases a.Options with
  | nil => simp [showCmdHelpLoop]
  | cons o l =>
    have hstate : (a.reshapeText (Trim o.Description)).1 = a.computeMargin :=
      reshapeText_app a _
    rw [showCmdHelpLoop, hstate, showCmdHelpLoop_eq a.computeMargin (computeMargin_idem a) l]
    simp [reshapeText_computeMargin]

/-- The string `reshapeText` returns for the empty text: 30 spaces when the threshold is
    positive, nothing otherwise. -/
theorem reshapeText_empty {σ α ε : Type} (a : App σ α ε) :
    (a.reshapeText []).2 =
      if 0 < a.computeMargin.threshold then List.replicate 30 (0x20 : Byte) else [] := by
  rw [reshapeText_out]
  have hlen : len ([] : GoString) = 0 := rfl
  rw [hlen]
  by_cases ht : 0 < a.computeMargin.threshold
  · rw [if_pos ht, if_pos ht, padSpaces_eq]
    rfl
  · rw [if_neg ht, if_neg ht]
    have hfit : ∀ w ∈ Split ([] : GoString),
        ¬ iadd (len (padSpaces a.computeMargin.threshold)) (len w) <
          a.computeMargin.threshold := by
      intro w hw
      apply no_fit_after_padding
      have hw0 : w = [] := by simpa [Split] using hw
      rw [hw0, len_padSpaces, hlen]
      unfold maxInt
      omega
    rw [long_branch_eq _ [] hfit]
    rfl

/-- C13, as amended. The text `showCmdHelp` returns is the concatenation, over the
    entries of the registry in insertion order and with nothing in between, of
    `reshapeText` applied to each entry's description without its leading and trailing
    spaces; an entry with an empty description contributes `reshapeText("")`, which is
    30 spaces when the threshold is positive and the empty string when it is not. -/
theorem showCmdHelp_concatenates {σ α ε : Type} (a : App σ α ε) :
    a.showCmdHelp.2 = (a.Options.map fun o => (a.reshapeText (Trim o.Description)).2).flatten ∧
    (∀ o ∈ a.Options, o.Description = [] →
      (a.reshapeText (Trim o.Description)).2 =
        if 0 < a.computeMargin.threshold then List.replicate 30 (0x20 : Byte) else []) := by
  refine ⟨(showCmdHelp_eq a).1, ?_⟩
  intro o _ hd
  rw [hd]
  exact reshapeText_empty a

/-- C13, witness: the per-command text of the commands `greet`, described by
    `says hello`, and `GREET`, with no description, is 30 spaces, `says hello` and 30
    spaces again. -/
theorem showCmdHelp_concatenates_witness :
    greetApp.showCmdHelp.2 =
      (greetApp.reshapeText (str "says hello")).2 ++ (greetApp.reshapeText []).2 ∧
    greetApp.showCmdHelp.2 =
      List.replicate 30 (0x20 : Byte) ++ str "says hello" ++ List.replicate 30 (0x20 : Byte) := by
  have h := (showCmdHelp_concatenates greetApp).1
  exact ⟨by rw [h]; decide, by decide⟩

/-- C13, counterexample: at width 80 the one entry of the registry has an empty
    description, and the per-command text is 30 spaces, not the empty string. -/
theorem showCmdHelp_of_empty_description :
    blankHelpApp.Options.map (fun o => o.Description) = [[]] ∧
    blankHelpApp.showCmdHelp.2 = List.replicate 30 (0x20 : Byte) ∧
    blankHelpApp.showCmdHelp.2.length = 30 := by
  decide

/-- Registries whose names have pairwise equal lengths have the same longest name. -/
theorem longestName_congr {σ α ε σ' α' ε' : Type} :
    ∀ (l : CommandOptions σ α ε) (m : CommandOptions σ' α' ε'),
      List.Forall₂ (fun o p => o.Cmd.length = p.Cmd.length) l m → longestName l = longestName m
  | _, _, .nil => rfl
  | _, _, .cons h hrest => by
    have ih := longestName_congr _ _ hrest
    simp only [longestName, List.map_cons, List.foldr_cons] at ih ⊢
    rw [h, ih]

/-- C20. Two `App`s of equal width with nothing cached, whose registries have the same
    length, pairwise equal descriptions and command names of pairwise equal byte
    lengths, get the same string from `showCmdHelp`: neither the bytes of the names nor
    the delimiter are in it. -/
theorem showCmdHelp_ignores_names {σ α ε σ' α' ε' : Type} (a : App σ α ε) (b : App σ' α' ε')
    (hwidth : a.MaxTerminalWidth = b.MaxTerminalWidth)
    (ha : a.margin = 0 ∧ a.delimiter = []) (hb : b.margin = 0 ∧ b.delimiter = [])
    (hopts : List.Forall₂
      (fun o p => o.Description = p.Description ∧ o.Cmd.length = p.Cmd.length)
      a.Options b.Options) :
    a.showCmdHelp.2 = b.showCmdHelp.2 := by
  have hlong : longestName a.Options = longestName b.Options :=
    longestName_congr _ _ (hopts.imp fun _ _ h => h.2)
  have hthr : a.computeMargin.threshold = b.computeMargin.threshold := by
    rw [computeMargin_of_zero a ha.1, computeMargin_of_zero b hb.1]
    unfold App.threshold
    simp only [longestCmdIdx_eq, hwidth, hlong]
  have hout : ∀ text, (a.reshapeText text).2 = (b.reshapeText text).2 := by
    intro text
    rw [reshapeText_out, reshapeText_out, hthr]
  rw [(showCmdHelp_eq a).1, (showCmdHelp_eq b).1]
  congr 1
  have hmap : ∀ (l : CommandOptions σ α ε) (m : CommandOptions σ' α' ε'),
      List.Forall₂ (fun o p => o.Description = p.Description ∧ o.Cmd.length = p.Cmd.length)
        l m →
      (l.map fun o => (a.reshapeText (Trim o.Description)).2) =
        m.map fun o => (b.reshapeText (Trim o.Description)).2 := by
    intro l m h
    induction h with
    | nil => rfl
    | cons h _ ih => rw [List.map_cons, List.map_cons, ih, h.1, hout]
  exact hmap _ _ hopts

/-- C20, witness: the commands `greet` and `GREET` renamed to `abcde` and `vwxyz`, with
    other handlers, give the same per-command text. -/
theorem showCmdHelp_ignores_names_witness :
    greetApp.MaxTerminalWidth = renamedApp.MaxTerminalWidth ∧
    (greetApp.margin = 0 ∧ greetApp.delimiter = []) ∧
    (renamedApp.margin = 0 ∧ renamedApp.delimiter = []) ∧
    greetApp.Options.map (fun o => (o.Description, o.Cmd.length)) =
      renamedApp.Options.map (fun o => (o.Description, o.Cmd.length)) ∧
    greetApp.Options.map (fun o => o.Cmd) ≠ renamedApp.Options.map (fun o => o.Cmd) ∧
    greetApp.showCmdHelp.2 = renamedApp.showCmdHelp.2 :=
  ⟨rfl, ⟨rfl, rfl⟩, ⟨rfl, rfl⟩, by decide, by decide,
    showCmdHelp_ignores_names greetApp renamedApp rfl ⟨rfl, rfl⟩ ⟨rfl, rfl⟩
      (.cons ⟨rfl, rfl⟩ (.cons ⟨rfl, rfl⟩ .nil))⟩

/-! ## Centred text -/

/-- Go's division of a non-negative `int` by 2. -/
theorem idiv_two (x : Int) (h0 : 0 ≤ x) (h1 : x ≤ maxInt) : idiv x 2 = x / 2 := by
  unfold idiv
  have h : Int.tdiv x 2 = x / 2 := by
    rw [Int.tdiv_eq_ediv h0 (by decide)]
  rw [h, wrapInt_of_mem _ (by unfold minInt; omega) (by unfold maxInt at *; omega)]

/-- C14. When the text is longer than `MaxTerminalWidth` (an `int`), `centerPadText`
    returns it unchanged; otherwise it returns `p` spaces, the text and `p` spaces again,
    with `p = (MaxTerminalWidth - len(text)) / 2`, so that the result has
    `MaxTerminalWidth` bytes when the difference is even, one less when it is odd, and
    never more. -/
theorem centerPadText_spec {σ α ε : Type} (a : App σ α ε) (text : GoString)
    (hint : a.MaxTerminalWidth ≤ maxInt) :
    (a.MaxTerminalWidth < len text → a.centerPadText text = text) ∧
    (len text ≤ a.MaxTerminalWidth →
      a.centerPadText text =
        List.replicate ((a.MaxTerminalWidth - len text) / 2).toNat (0x20 : Byte) ++ text ++
          List.replicate ((a.MaxTerminalWidth - len text) / 2).toNat (0x20 : Byte) ∧
      ((a.MaxTerminalWidth - len text) % 2 = 0 →
        len (a.centerPadText text) = a.MaxTerminalWidth) ∧
      ((a.MaxTerminalWidth - len text) % 2 = 1 →
        len (a.centerPadText text) = a.MaxTerminalWidth - 1) ∧
      len (a.centerPadText text) ≤ a.MaxTerminalWidth) := by
  have hlen : (0 : Int) ≤ len text := Int.ofNat_nonneg _
  constructor
  · intro h
    unfold App.centerPadText
    simp only [gt_iff_lt, if_pos h]
  · intro h
    have hsub : isub a.MaxTerminalWidth (len text) = a.MaxTerminalWidth - len text := by
      unfold isub
      rw [wrapInt_of_mem _ (by unfold minInt; omega) (by unfold maxInt at *; omega)]
    have heq : a.centerPadText text =
        List.replicate ((a.MaxTerminalWidth - len text) / 2).toNat (0x20 : Byte) ++ text ++
          List.replicate ((a.MaxTerminalWidth - len text) / 2).toNat (0x20 : Byte) := by
      unfold App.centerPadText
      simp only [gt_iff_lt, if_neg (not_lt.mpr h), hsub,
        idiv_two _ (by omega : (0 : Int) ≤ a.MaxTerminalWidth - len text) (by omega),
        padSpaces_eq]
    refine ⟨heq, ?_, ?_, ?_⟩
    · intro hev
      rw [heq]
      unfold len at *
      simp only [List.length_append, List.length_replicate]
      omega
    · intro hodd
      rw [heq]
      unfold len at *
      simp only [List.length_append, List.length_replicate]
      omega
    · rw [heq]
      unfold len at *
      simp only [List.length_append, List.length_replicate]
      omega

/-- C14, witness: `centerPadText("hi")` at width 10 is four spaces, `hi` and four
    spaces, 10 bytes in all. -/
theorem centerPadText_spec_witness :
    ({ emptyApp with MaxTerminalWidth := 10 } : App Nat Nat Nat).MaxTerminalWidth ≤ maxInt ∧
    ({ emptyApp with MaxTerminalWidth := 10 } : App Nat Nat Nat).centerPadText (str "hi") =
      str "    hi    " ∧
    len (({ emptyApp with MaxTerminalWidth := 10 } : App Nat Nat Nat).centerPadText (str "hi")) =
      10 := by
  have h := (centerPadText_spec ({ emptyApp with MaxTerminalWidth := 10 } : App Nat Nat Nat)
    (str "hi") (by decide)).2 (by decide)
  exact ⟨by decide, by decide, h.2.1 (by decide)⟩

/-! ## The help text -/

/-- The function `padStars` returns `num` stars, none for a negative `num`. -/
theorem padStars_eq (num : Int) : padStars num = List.replicate num.toNat (0x2A : Byte) := by
  unfold padStars padChar
  have hloop : ∀ (n : Nat) (s : GoString),
      padCharLoop 0x2A n s = s ++ List.replicate n (0x2A : Byte) := by
    intro n
    induction n with
    | zero => intro s; simp [padCharLoop]
    | succ n ih =>
      intro s
      have henc : EncodeRune 0x2A = [(0x2A : Byte)] := by decide
      rw [padCharLoop, ih, henc, List.replicate_succ, List.append_assoc]
      rfl
  rw [hloop]
  rfl

/-- The per-command text does not depend on the name of the `App`. -/
theorem showCmdHelp_name {σ α ε : Type} (a : App σ α ε) (name : GoString) :
    ({ a with Name := name } : App σ α ε).showCmdHelp.2 = a.showCmdHelp.2 := by
  have hthr : ({ a with Name := name } : App σ α ε).computeMargin.threshold =
      a.computeMargin.threshold := by
    unfold App.computeMargin
    split_ifs <;> rfl
  rw [(showCmdHelp_eq _).1, (showCmdHelp_eq a).1]
  simp only [reshapeText_out, hthr]

/-- C15. The text `ShowHelp` composes is a banner, present exactly when `Name` is not
    empty, then `Description` and two line breaks when `Description` is not empty, then
    the per-command text. The banner is a line of stars, three empty lines, a line of
    stars and one empty line, each line of stars having `MaxTerminalWidth` stars (none
    when that is negative); the name is not in it, and the text is the same for every
    other non-empty name. -/
theorem showHelp_text {σ α ε : Type} (a : App σ α ε) :
    a.ShowHelp.2 =
      (if a.Name ≠ [] then
        List.replicate a.MaxTerminalWidth.toNat (0x2A : Byte) ++ [0x0A, 0x0A, 0x0A, 0x0A] ++
          List.replicate a.MaxTerminalWidth.toNat (0x2A : Byte) ++ [0x0A, 0x0A]
       else []) ++
      (if a.Description ≠ [] then a.Description ++ [0x0A, 0x0A] else []) ++
      a.showCmdHelp.2 ∧
    (0 ≤ a.MaxTerminalWidth →
      len (List.replicate a.MaxTerminalWidth.toNat (0x2A : Byte)) = a.MaxTerminalWidth) ∧
    (∀ name : GoString, a.Name ≠ [] → name ≠ [] →
      ({ a with Name := name } : App σ α ε).ShowHelp.2 = a.ShowHelp.2) := by
  have hnl : str "\n\n" = ([0x0A, 0x0A] : GoString) := by decide
  have htext : ∀ b : App σ α ε, b.ShowHelp.2 =
      (if b.Name ≠ [] then
        List.replicate b.MaxTerminalWidth.toNat (0x2A : Byte) ++ [0x0A, 0x0A, 0x0A, 0x0A] ++
          List.replicate b.MaxTerminalWidth.toNat (0x2A : Byte) ++ [0x0A, 0x0A]
       else []) ++
      (if b.Description ≠ [] then b.Description ++ [0x0A, 0x0A] else []) ++
      b.showCmdHelp.2 := by
    intro b
    unfold App.ShowHelp
    simp only [hnl, padStars_eq]
    by_cases hn : b.Name = [] <;> by_cases hd : b.Description = [] <;>
      by_cases hh : b.showCmdHelp.2 = [] <;> simp [hn, hd, hh]
  refine ⟨htext a, ?_, ?_⟩
  · intro h0
    unfold len
    rw [List.length_replicate]
    omega
  · intro name ha hname
    rw [htext, htext a, showCmdHelp_name]
    simp only [ha, hname, ne_eq, not_false_eq_true, if_true]

/-- C15, witness: the help text of the `App` named `demo`, of width 80, starts with 80
    stars and is the same under the name `other`. -/
theorem showHelp_text_witness :
    greetApp.Name = str "demo" ∧
    greetApp.ShowHelp.2.take 85 = List.replicate 80 (0x2A : Byte) ++ [0x0A, 0x0A, 0x0A, 0x0A, 0x2A] ∧
    ({ greetApp with Name := str "other" } : App Nat Nat Nat).ShowHelp.2 = greetApp.ShowHelp.2 :=
  ⟨rfl, by decide, (showHelp_text greetApp).2.2 (str "other") (by decide) (by decide)⟩

/-! ## Panics -/

/-- `Run` does not panic on a registry all of whose entries have a handler. -/
theorem run_no_panic_of_handlers {σ α ε : Type} (U : Unicode) (a : App σ α ε)
    (h : ∀ o ∈ a.Options, o.Func ≠ none) (cmd : GoString) (args : List α) (w : σ) :
    (a.Run U cmd args w).ret ≠ .panic := by
  unfold App.Run
  suffices hs : ∀ (l : List (CommandOption σ α ε)) (i : Nat), (∀ o ∈ l, o.Func ≠ none) →
      (runLoop U a cmd args w i l).ret ≠ .panic from hs _ 0 h
  intro l
  induction l with
  | nil => intro i _; simp [runLoop]
  | cons o l ih =>
    intro i hl
    rw [runLoop]
    split_ifs
    · cases hf : o.Func with
      | none => exact absurd hf (hl o (by simp))
      | some f => simp
    · exact ih (i + 1) (fun p hp => hl p (by simp [hp]))

/-- C16, the code at the failing input: `Add` stores an entry named `x` whose handler is
    nil, and `Run("x")` then calls the nil func and panics; `AddOption` refuses the same
    name and handler with an error. -/
theorem run_panics_on_nil_handler :
    nilHandlerApp.Options = [{ Cmd := str "x", Description := [], Func := none }] ∧
    (nilHandlerApp.Run dotlessAndKelvin (str "x") [] 0).ret = .panic ∧
    (nilHandlerApp.Run dotlessAndKelvin (str "X") [] 0).ret = .panic ∧
    (emptyApp.AddOption (str "x") none).2 =
      some (.created (str "no function was given")) := by
  refine ⟨rfl, rfl, rfl, rfl⟩

/-! ## The threshold over the life of an `App` -/

/-- The state of the cache depends on the width and the two cached fields only. -/
theorem cacheOk_congr {σ α ε : Type} (W : Int) (a b : App σ α ε)
    (hw : b.MaxTerminalWidth = a.MaxTerminalWidth) (hm : b.margin = a.margin)
    (hd : b.delimiter = a.delimiter) (h : a.CacheOk W) : b.CacheOk W := by
  unfold App.CacheOk at *
  rw [hw, hm, hd]
  exact h

/-- `computeMargin` keeps the state of the cache, and leaves a margin of at most
    `W - 30` with the delimiter ` - `. -/
theorem cacheOk_computeMargin {σ α ε : Type} (W : Int) (hlo : minInt + 30 ≤ W)
    (hhi : W ≤ maxInt) (a : App σ α ε) (h : a.CacheOk W) :
    a.computeMargin.CacheOk W ∧ a.computeMargin.margin ≤ W - 30 ∧
      a.computeMargin.delimiter = str " - " := by
  unfold App.CacheOk at *
  by_cases h0 : a.margin = 0
  · have hL : (0 : Int) ≤ (longestName a.Options : Int) := Int.ofNat_nonneg _
    have hsub : isub a.MaxTerminalWidth 30 = W - 30 := by
      unfold isub
      rw [h.1, wrapInt_of_mem _ (by unfold minInt at *; omega) (by unfold maxInt at *; omega)]
    have hmargin : a.computeMargin.margin =
        min (longestName a.Options : Int) (W - 30) := by
      rw [computeMargin_of_zero a h0]
      show a.longestCmdIdx = _
      rw [longestCmdIdx_eq, hsub]
    have hdelim : a.computeMargin.delimiter = str " - " := by
      rw [computeMargin_of_zero a h0]
    have hwidth : a.computeMargin.MaxTerminalWidth = W := by
      rw [computeMargin_width]; exact h.1
    rw [hmargin, hdelim, hwidth]
    exact ⟨⟨rfl, by omega, Or.inr ⟨by omega, rfl⟩⟩, by omega, rfl⟩
  · rw [computeMargin_of_ne a h0]
    rcases h.2.2 with hz | hc
    · exact absurd hz h0
    · exact ⟨h, hc.1, hc.2⟩

/-- `AddOption` writes neither the width nor the cache. -/
theorem addOption_frame {σ α ε : Type} (a : App σ α ε) (cmd : GoString)
    (f : OptionFunc σ α ε) :
    (a.AddOption cmd f).1.MaxTerminalWidth = a.MaxTerminalWidth ∧
    (a.AddOption cmd f).1.margin = a.margin ∧
    (a.AddOption cmd f).1.delimiter = a.delimiter := by
  unfold App.AddOption
  split_ifs <;> exact ⟨rfl, rfl, rfl⟩

/-- Every call keeps the state of the cache. -/
theorem cacheOk_step {σ α ε : Type} (W : Int) (hlo : minInt + 30 ≤ W)
    (hhi : W ≤ maxInt) (a : App σ α ε) (op : Op σ α ε) (h : a.CacheOk W) :
    (a.step op).CacheOk W := by
  cases op with
  | add option => exact cacheOk_congr W a _ rfl rfl rfl h
  | addOption cmd _func =>
    have hf := addOption_frame a cmd _func
    exact cacheOk_congr W a _ hf.1 hf.2.1 hf.2.2 h
  | reshapeText text =>
    show (a.reshapeText text).1.CacheOk W
    rw [reshapeText_app]
    exact (cacheOk_computeMargin W hlo hhi a h).1
  | showHelp =>
    show a.ShowHelp.1.CacheOk W
    have hs : a.ShowHelp.1 = a.showCmdHelp.1 := rfl
    rw [hs, (showCmdHelp_eq a).2]
    split_ifs
    · exact h
    · exact (cacheOk_computeMargin W hlo hhi a h).1

/-- Every sequence of calls keeps the state of the cache. -/
theorem cacheOk_steps {σ α ε : Type} (W : Int) (hlo : minInt + 30 ≤ W) (hhi : W ≤ maxInt) :
    ∀ (ops : List (Op σ α ε)) (a : App σ α ε), a.CacheOk W → (a.steps ops).CacheOk W
  | [], _, h => h
  | op :: ops, a, h => cacheOk_steps W hlo hhi ops (a.step op) (cacheOk_step W hlo hhi a op h)

/-- C18, as amended. Take an `App` that starts with nothing cached and whose
    `MaxTerminalWidth` is an `int` at least 30 above the smallest one, so that
    `MaxTerminalWidth - 30` does not overflow. After any sequence of `Add`, `AddOption`,
    `reshapeText` and `ShowHelp` calls, the margin a call of `reshapeText` works with is
    at most `MaxTerminalWidth - 30` and the delimiter is ` - `, so the threshold is at
    least 27, also for a width below 30 or negative; and every text shorter than 27
    bytes is returned by the short branch, behind 30 spaces. -/
theorem threshold_at_least_27 {σ α ε : Type} (a : App σ α ε) (ops : List (Op σ α ε))
    (text : GoString) (hstart : a.margin = 0 ∧ a.delimiter = [])
    (hlo : minInt + 30 ≤ a.MaxTerminalWidth) (hhi : a.MaxTerminalWidth ≤ maxInt) :
    (a.steps ops).MaxTerminalWidth = a.MaxTerminalWidth ∧
    (a.steps ops).computeMargin.margin ≤ a.MaxTerminalWidth - 30 ∧
    (a.steps ops).computeMargin.delimiter = str " - " ∧
    27 ≤ (a.steps ops).computeMargin.threshold ∧
    (len text < 27 →
      ((a.steps ops).reshapeText text).2 = List.replicate 30 (0x20 : Byte) ++ text) := by
  have hinv : (a.steps ops).CacheOk a.MaxTerminalWidth :=
    cacheOk_steps a.MaxTerminalWidth hlo hhi ops a
      ⟨rfl, by rw [hstart.1]; omega, Or.inl hstart.1⟩
  obtain ⟨hcm, hmargin, hdelim⟩ :=
    cacheOk_computeMargin a.MaxTerminalWidth hlo hhi (a.steps ops) hinv
  have hthr : 27 ≤ (a.steps ops).computeMargin.threshold := by
    unfold App.threshold
    rw [hcm.1, hdelim]
    have hd : len (str " - ") = 3 := rfl
    have hge := hcm.2.1
    rw [hd]
    unfold isub
    rw [wrapInt_of_mem (a.MaxTerminalWidth - (a.steps ops).computeMargin.margin)
      (by unfold minInt at *; omega) (by unfold maxInt at *; omega)]
    rw [wrapInt_of_mem _ (by unfold minInt at *; omega) (by unfold maxInt at *; omega)]
    omega
  refine ⟨hinv.1, hmargin, hdelim, hthr, ?_⟩
  intro hshort
  exact reshapeText_below_threshold _ text (by omega)

/-- C18, witness: an `App` of width 20 after a registration, a `reshapeText`, an `Add` and
    a `ShowHelp`: the margin is -10, the threshold 27, and `short` is returned behind
    30 spaces. -/
theorem threshold_at_least_27_witness :
    (({ emptyApp with MaxTerminalWidth := 20 } : App Nat Nat Nat).margin = 0 ∧
      ({ emptyApp with MaxTerminalWidth := 20 } : App Nat Nat Nat).delimiter = []) ∧
    minInt + 30 ≤ (20 : Int) ∧ (20 : Int) ≤ maxInt ∧
    ((({ emptyApp with MaxTerminalWidth := 20 } : App Nat Nat Nat).steps sampleOps).MaxTerminalWidth
        = 20 ∧
      (({ emptyApp with MaxTerminalWidth := 20 } : App Nat Nat Nat).steps
        sampleOps).computeMargin.margin ≤ 20 - 30 ∧
      (({ emptyApp with MaxTerminalWidth := 20 } : App Nat Nat Nat).steps
        sampleOps).computeMargin.delimiter = str " - " ∧
      27 ≤ (({ emptyApp with MaxTerminalWidth := 20 } : App Nat Nat Nat).steps
        sampleOps).computeMargin.threshold ∧
      (len (str "short") < 27 →
        ((({ emptyApp with MaxTerminalWidth := 20 } : App Nat Nat Nat).steps
          sampleOps).reshapeText (str "short")).2 =
          List.replicate 30 (0x20 : Byte) ++ str "short")) :=
  ⟨⟨rfl, rfl⟩, by decide, by decide,
    threshold_at_least_27 ({ emptyApp with MaxTerminalWidth := 20 } : App Nat Nat Nat)
      sampleOps (str "short") ⟨rfl, rfl⟩ (by decide) (by decide)⟩

/-- C18, counterexample: an `App` of width 20 after one registration and no
    `reshapeText` still has the margin 0, which is above `20 - 30`, and the empty
    delimiter. And the threshold itself can be below 27: the second `App` has nothing
    cached and its width is 29 above the smallest `int`; `MaxTerminalWidth - 30` wraps
    around to the largest `int`, the first `reshapeText` caches the margin 0, which is
    above `MaxTerminalWidth - 30`, the threshold is `MaxTerminalWidth - 3`, far below
    27, and the text `hi` goes through the long branch and comes back empty. -/
theorem threshold_below_27_near_smallest_width :
    (({ emptyApp with MaxTerminalWidth := 20 } : App Nat Nat Nat).steps
      [.addOption (str "hello") (some countCalls)]).margin = 0 ∧
    (({ emptyApp with MaxTerminalWidth := 20 } : App Nat Nat Nat).steps
      [.addOption (str "hello") (some countCalls)]).delimiter = [] ∧
    almostNarrowestApp.margin = 0 ∧ almostNarrowestApp.delimiter = [] ∧
    almostNarrowestApp.MaxTerminalWidth = -9223372036854775779 ∧
    isub almostNarrowestApp.MaxTerminalWidth 30 = 9223372036854775807 ∧
    (almostNarrowestApp.reshapeText (str "hi")).1.margin = 0 ∧
    almostNarrowestApp.MaxTerminalWidth - 30 <
      (almostNarrowestApp.reshapeText (str "hi")).1.margin ∧
    almostNarrowestApp.computeMargin.threshold = -9223372036854775782 ∧
    almostNarrowestApp.computeMargin.threshold < 27 ∧
    len (str "hi") < 27 ∧
    (almostNarrowestApp.reshapeText (str "hi")).2 = [] := by
  decide

/-! ## `strings.EqualFold` as a comparison of runes -/

/-- More iterations than the string has bytes do not change the runes found. -/
theorem runesAux_eq : ∀ (n m : Nat) (s : GoString), s.length ≤ n → s.length ≤ m →
    runesAux n s = runesAux m s
  | 0, m, s, hn, _ => by
    have : s = [] := List.length_eq_zero.mp (Nat.le_zero.mp hn)
    subst this
    cases m <;> rfl
  | n + 1, 0, s, _, hm => by
    have : s = [] := List.length_eq_zero.mp (Nat.le_zero.mp hm)
    subst this
    rfl
  | n + 1, m + 1, [], _, _ => rfl
  | n + 1, m + 1, b :: s, hn, hm => by
    have hw := decode_width_pos b s
    have hlen : ((b :: s).drop (DecodeRuneInString (b :: s)).2).length ≤ s.length := by
      rw [List.length_drop]
      simp only [List.length_cons]
      omega
    simp only [List.length_cons] at hn hm
    rw [runesAux, runesAux, runesAux_eq n m _ (by omega) (by omega)]

/-- The runes of a non-empty string: the first rune, then the runes of the rest. -/
theorem runes_cons (b : Byte) (s : GoString) :
    runes (b :: s) =
      (DecodeRuneInString (b :: s)).1 :: runes ((b :: s).drop (DecodeRuneInString (b :: s)).2) := by
  have hw := decode_width_pos b s
  unfold runes
  rw [List.length_cons, runesAux]
  congr 1
  apply runesAux_eq
  · rw [List.length_drop]
    simp only [List.length_cons]
    omega
  · exact Nat.le_refl _

/-- The runes of a string that starts with an ASCII byte. -/
theorem runes_cons_ascii (b : Byte) (s : GoString) (h : b.val < 0x80) :
    runes (b :: s) = b.val :: runes s := by
  rw [runes_cons, decode_ascii b s h]
  rfl

/-- The rune-wise part of `strings.EqualFold` compares the runes of the two strings. -/
theorem equalFoldUnicode_eq (U : Unicode) :
    ∀ (n : Nat) (s t : GoString), s.length ≤ n →
      equalFoldUnicode U n s t = runesMatch U (runes s) (runes t)
  | 0, s, t, h => by
    have : s = [] := List.length_eq_zero.mp (Nat.le_zero.mp h)
    subst this
    cases t with
    | nil => rfl
    | cons t0 trest => rw [runes_cons]; rfl
  | _ + 1, [], t, _ => by
    cases t with
    | nil => rfl
    | cons t0 trest => rw [runes_cons]; rfl
  | n + 1, b :: s, [], _ => by
    rw [runes_cons]; rfl
  | n + 1, b :: s, t0 :: trest, h => by
    have hw := decode_width_pos b s
    have htr : (if t0.val < RuneSelf then (t0.val, 1) else DecodeRuneInString (t0 :: trest)) =
        DecodeRuneInString (t0 :: trest) := by
      split_ifs with h0
      · exact (decode_ascii t0 trest h0).symm
      · rfl
    have hrec := equalFoldUnicode_eq U n ((b :: s).drop (DecodeRuneInString (b :: s)).2)
      ((t0 :: trest).drop (DecodeRuneInString (t0 :: trest)).2) (by
        rw [List.length_drop]
        simp only [List.length_cons] at h ⊢
        omega)
    rw [runes_cons b s, runes_cons t0 trest]
    simp only [equalFoldUnicode, htr, runesMatch, hrec]
    cases foldEq U (DecodeRuneInString (b :: s)).1 (DecodeRuneInString (t0 :: trest)).1 <;> simp

/-- `strings.EqualFold` compares the runes of the two strings. -/
theorem equalFold_eq_runesMatch (U : Unicode) :
    ∀ (s t : GoString), EqualFold U s t = runesMatch U (runes s) (runes t)
  | [], [] => by simp [EqualFold, runes, runesAux, runesMatch]
  | [], t0 :: trest => by
    rw [runes_cons]
    simp [EqualFold, runes, runesAux, runesMatch]
  | b :: s, [] => by
    rw [runes_cons]
    simp [EqualFold, runes, runesAux, runesMatch]
  | sr :: s, tr :: t => by
    by_cases hcond : RuneSelf ≤ sr.val ∨ RuneSelf ≤ tr.val
    · rw [EqualFold, if_pos hcond]
      exact equalFoldUnicode_eq U _ _ _ (Nat.le_refl _)
    · have hs : sr.val < 0x80 := by unfold RuneSelf at hcond; omega
      have ht : tr.val < 0x80 := by unfold RuneSelf at hcond; omega
      rw [equalFold_cons_ascii U sr tr s t hs ht, runes_cons_ascii sr s hs,
        runes_cons_ascii tr t ht, runesMatch, foldEq_ascii U _ _ hs ht,
        equalFold_eq_runesMatch U s t]

/-- The comparison of two runes does not depend on their order. -/
theorem foldEq_comm (U : Unicode) (r s : Nat) : foldEq U r s = foldEq U s r := by
  unfold foldEq
  by_cases h : r = s
  · subst h; rfl
  · have h' : ¬ s = r := fun hc => h hc.symm
    rw [if_neg h, if_neg h']
    by_cases hlt : r < s
    · have hgt : ¬ s < r := by omega
      simp only [hlt, hgt, if_true, if_false]
    · have hgt : s < r := by omega
      simp only [hlt, hgt, if_true, if_false]

/-- The comparison of two lists of runes does not depend on their order. -/
theorem runesMatch_comm (U : Unicode) :
    ∀ (rs ts : List Nat), runesMatch U rs ts = runesMatch U ts rs
  | [], [] => rfl
  | [], _ :: _ => rfl
  | _ :: _, [] => rfl
  | r :: rs, t :: ts => by
    rw [runesMatch, runesMatch, foldEq_comm U r t, runesMatch_comm U rs ts]

/-- The comparison of lists of runes is transitive when the comparison of runes is. -/
theorem runesMatch_trans (U : Unicode)
    (htrans : ∀ r s t, foldEq U r s = true → foldEq U s t = true → foldEq U r t = true) :
    ∀ (rs ss ts : List Nat), runesMatch U rs ss = true → runesMatch U ss ts = true →
      runesMatch U rs ts = true
  | [], [], [], _, _ => rfl
  | [], [], _ :: _, _, h => by simp [runesMatch] at h
  | [], _ :: _, _, h, _ => by simp [runesMatch] at h
  | _ :: _, [], _, h, _ => by simp [runesMatch] at h
  | _ :: _, _ :: _, [], _, h => by simp [runesMatch] at h
  | r :: rs, s :: ss, t :: ts, h1, h2 => by
    simp only [runesMatch, Bool.and_eq_true] at h1 h2 ⊢
    exact ⟨htrans r s t h1.1 h2.1, runesMatch_trans U htrans rs ss ts h1.2 h2.2⟩

/-- `strings.EqualFold` does not depend on the order of its arguments. -/
theorem equalFold_comm (U : Unicode) (s t : GoString) : EqualFold U s t = EqualFold U t s := by
  rw [equalFold_eq_runesMatch, equalFold_eq_runesMatch, runesMatch_comm]

/-- `strings.EqualFold` is transitive when the comparison of runes is. -/
theorem equalFold_trans (U : Unicode)
    (htrans : ∀ r s t, foldEq U r s = true → foldEq U s t = true → foldEq U r t = true)
    (s t u : GoString) (h1 : EqualFold U s t = true) (h2 : EqualFold U t u = true) :
    EqualFold U s u = true := by
  rw [equalFold_eq_runesMatch] at h1 h2 ⊢
  exact runesMatch_trans U htrans _ _ _ h1 h2

/-- Names that are equal under `strings.EqualFold` are matched by the same names, when
    the comparison of runes is transitive. -/
theorem equalFold_congr_right (U : Unicode)
    (htrans : ∀ r s t, foldEq U r s = true → foldEq U s t = true → foldEq U r t = true)
    (cmd cmd' : GoString) (h : EqualFold U cmd cmd' = true) (x : GoString) :
    EqualFold U x cmd' = EqualFold U x cmd := by
  have h' : EqualFold U cmd' cmd = true := by rw [equalFold_comm]; exact h
  cases h1 : EqualFold U x cmd with
  | true => exact equalFold_trans U htrans x cmd cmd' h1 h
  | false =>
    cases h2 : EqualFold U x cmd' with
    | false => rfl
    | true =>
      have := equalFold_trans U htrans x cmd' cmd h2 h'
      rw [h1] at this
      exact absurd this (by simp)

/-- Under `dotlessAndKelvin` two different runes above ASCII never match. -/
theorem foldEq_dotless_nonascii (lo hi : Nat) (hlo : 0x80 ≤ lo) (hlt : lo < hi) :
    foldEq dotlessAndKelvin lo hi = false := by
  obtain ⟨n, rfl⟩ : ∃ n, hi = n + 4 := ⟨hi - 4, by omega⟩
  have hne : ¬ n + 4 = lo := by omega
  have hnlt : ¬ n + 4 < lo := by omega
  have hhi : ¬ n + 4 < 128 := by omega
  unfold foldEq RuneSelf
  simp only [hne, hnlt, hhi, if_false]
  rw [simpleFold_nonascii _ lo hlo]
  have hS : asciiFold 0x53 = 0x73 := by decide
  have hs : asciiFold 0x73 = 0x17F := by decide
  have hK : asciiFold 0x4B = 0x6B := by decide
  have hk : asciiFold 0x6B = 0x212A := by decide
  by_cases h1 : lo = 0x17F
  · subst h1
    have hf : dotlessAndKelvin.SimpleFold 0x17F = 0x53 := rfl
    rw [hf, foldLoop_step _ _ _ _ _ (by omega), simpleFold_ascii _ _ (by omega), hS,
      foldLoop_step _ _ _ _ _ (by omega), simpleFold_ascii _ _ (by omega), hs,
      foldLoop_exit _ _ _ _ _ (by omega)]
    simp
    omega
  by_cases h2 : lo = 0x212A
  · subst h2
    have hf : dotlessAndKelvin.SimpleFold 0x212A = 0x4B := rfl
    rw [hf, foldLoop_step _ _ _ _ _ (by omega), simpleFold_ascii _ _ (by omega), hK,
      foldLoop_step _ _ _ _ _ (by omega), simpleFold_ascii _ _ (by omega), hk,
      foldLoop_exit _ _ _ _ _ (by omega)]
    simp
    omega
  · have hf : dotlessAndKelvin.SimpleFold lo = lo := by
      show (if lo = 0x17F then 0x53 else if lo = 0x212A then 0x4B else lo) = lo
      rw [if_neg h1, if_neg h2]
    rw [hf, foldLoop_exit _ _ _ _ _ (by omega)]
    simp
    omega

/-- Under `dotlessAndKelvin` two runes match exactly when they are in one orbit. -/
theorem foldEq_dotless (r s : Nat) :
    foldEq dotlessAndKelvin r s = decide (foldKey r = foldKey s) := by
  by_cases hr : r < 0x80
  · by_cases hs : s < 0x80
    · rw [foldEq_ascii _ r s hr hs]
      unfold foldKey
      rw [if_neg (by omega), if_neg (by omega), if_neg (by omega), if_neg (by omega)]
    · rw [foldEq_comm, foldEq_nonascii_ascii _ rfl rfl s r (by omega) hr]
      unfold foldKey lowerRune
      rw [Bool.eq_iff_iff]
      simp only [decide_eq_true_eq]
      constructor
      · intro h; split_ifs at h ⊢ <;> omega
      · intro h; split_ifs at h ⊢ <;> omega
  · by_cases hs : s < 0x80
    · rw [foldEq_nonascii_ascii _ rfl rfl r s (by omega) hs]
      unfold foldKey lowerRune
      rw [Bool.eq_iff_iff]
      simp only [decide_eq_true_eq]
      constructor
      · intro h; split_ifs at h ⊢ <;> omega
      · intro h; split_ifs at h ⊢ <;> omega
    · rcases Nat.lt_trichotomy r s with hlt | heq | hgt
      · rw [foldEq_dotless_nonascii r s (by omega) hlt]
        symm
        rw [decide_eq_false_iff_not]
        unfold foldKey lowerRune
        split_ifs <;> omega
      · subst heq
        rw [foldEq_self]
        simp
      · rw [foldEq_comm, foldEq_dotless_nonascii s r (by omega) hgt]
        symm
        rw [decide_eq_false_iff_not]
        unfold foldKey lowerRune
        split_ifs <;> omega

/-- Under `dotlessAndKelvin` the comparison of runes is transitive. -/
theorem foldEq_dotless_trans (r s t : Nat) (h1 : foldEq dotlessAndKelvin r s = true)
    (h2 : foldEq dotlessAndKelvin s t = true) : foldEq dotlessAndKelvin r t = true := by
  rw [foldEq_dotless] at h1 h2 ⊢
  simp only [decide_eq_true_eq] at h1 h2 ⊢
  rw [h1, h2]

/-! ## Registration followed by dispatch -/

/-- The handler calls `Run` makes when the first matching entry is known. -/
theorem run_calls_of_first_match {σ α ε : Type} (U : Unicode) (a : App σ α ε)
    (cmd : GoString) (args : List α) (w : σ) (pre post : List (CommandOption σ α ε))
    (o : CommandOption σ α ε) (hsplit : a.Options = pre ++ o :: post)
    (hpre : ∀ p ∈ pre, EqualFold U p.Cmd cmd = false) (ho : EqualFold U o.Cmd cmd = true) :
    ∀ c ∈ (a.Run U cmd args w).calls, c.1 = pre.length := by
  rw [run_eq_of_first_match U a cmd args w pre post o hsplit hpre ho]
  cases o.Func with
  | none => simp
  | some f => simp

/-- C19. Let the comparison of runes be transitive, as it is for Go's tables, whose
    folding orbits are cycles. After `AddOption(cmd, f)` with a non-empty `cmd` and a
    handler `f`, which succeeds and appends the entry, `Run(cmd', args)` for a `cmd'`
    equal to `cmd` under `strings.EqualFold` calls `f` with `args` and returns what `f`
    returns if no entry already in the registry has a name equal to `cmd`; if there is
    one, `Run(cmd', args)` calls the handler of the first such entry, and no call of
    `Run`, whatever the name, reaches the new entry. -/
theorem addOption_then_run {σ α ε : Type} (U : Unicode)
    (htrans : ∀ r s t, foldEq U r s = true → foldEq U s t = true → foldEq U r t = true)
    (a : App σ α ε) (cmd : GoString) (f : List α → σ → σ × Option ε) (cmd' : GoString)
    (args : List α) (w : σ) (hcmd : cmd ≠ []) (hmatch : EqualFold U cmd cmd' = true) :
    (a.AddOption cmd (some f)).2 = none ∧
    (a.AddOption cmd (some f)).1.Options =
      a.Options ++ [{ Cmd := cmd, Description := [], Func := some f }] ∧
    ((∀ o ∈ a.Options, EqualFold U o.Cmd cmd = false) →
      (a.AddOption cmd (some f)).1.Run U cmd' args w =
        ⟨(a.AddOption cmd (some f)).1, (f args w).1, [(a.Options.length, args)],
          .value ((f args w).2.map .handler)⟩) ∧
    ((∃ o ∈ a.Options, EqualFold U o.Cmd cmd = true) →
      (∃ pre o post, a.Options = pre ++ o :: post ∧
        (∀ p ∈ pre, EqualFold U p.Cmd cmd = false) ∧ EqualFold U o.Cmd cmd = true ∧
        ∀ g, o.Func = some g →
          (a.AddOption cmd (some f)).1.Run U cmd' args w =
            ⟨(a.AddOption cmd (some f)).1, (g args w).1, [(pre.length, args)],
              .value ((g args w).2.map .handler)⟩) ∧
      ∀ (name : GoString) (args₂ : List α) (w₂ : σ),
        ∀ c ∈ ((a.AddOption cmd (some f)).1.Run U name args₂ w₂).calls,
          c.1 < a.Options.length) := by
  have hopts : (a.AddOption cmd (some f)).1.Options =
      a.Options ++ [{ Cmd := cmd, Description := [], Func := some f }] := by
    simp [App.AddOption, hcmd, append_eq]
  have hsame := equalFold_congr_right U htrans cmd cmd' hmatch
  refine ⟨by simp [App.AddOption, hcmd], hopts, ?_, ?_⟩
  · intro hnone
    have hpre : ∀ p ∈ a.Options, EqualFold U p.Cmd cmd' = false := fun p hp => by
      rw [hsame]; exact hnone p hp
    have hrun := run_eq_of_first_match U (a.AddOption cmd (some f)).1 cmd' args w a.Options []
      { Cmd := cmd, Description := [], Func := some f } hopts hpre hmatch
    rw [hrun]
  · intro hsome
    obtain ⟨pre, o, post, hsplit, hpre, ho⟩ :=
      exists_first_split (fun x : CommandOption σ α ε => EqualFold U x.Cmd cmd) a.Options hsome
    have hlen : pre.length < a.Options.length := by
      rw [hsplit, List.length_append, List.length_cons]
      omega
    constructor
    · refine ⟨pre, o, post, hsplit, hpre, ho, ?_⟩
      intro g hg
      have hsplit' : (a.AddOption cmd (some f)).1.Options =
          pre ++ o :: (post ++ [{ Cmd := cmd, Description := [], Func := some f }]) := by
        rw [hopts, hsplit]
        simp
      have hrun := run_eq_of_first_match U (a.AddOption cmd (some f)).1 cmd' args w pre _ o
        hsplit' (fun p hp => by rw [hsame]; exact hpre p hp) (by rw [hsame]; exact ho)
      rw [hrun, hg]
    · intro name args₂ w₂ c hc
      by_cases hex : ∃ e ∈ a.Options, EqualFold U e.Cmd name = true
      · obtain ⟨pre₂, o₂, post₂, hsplit₂, hpre₂, ho₂⟩ :=
          exists_first_split (fun x : CommandOption σ α ε => EqualFold U x.Cmd name)
            a.Options hex
        have hsplit' : (a.AddOption cmd (some f)).1.Options =
            pre₂ ++ o₂ :: (post₂ ++ [{ Cmd := cmd, Description := [], Func := some f }]) := by
          rw [hopts, hsplit₂]
          simp
        have := run_calls_of_first_match U (a.AddOption cmd (some f)).1 name args₂ w₂ pre₂ _ o₂
          hsplit' hpre₂ ho₂ c hc
        rw [this, hsplit₂, List.length_append, List.length_cons]
        omega
      · have hnew : EqualFold U cmd name = false := by
          cases hn : EqualFold U cmd name with
          | false => rfl
          | true =>
            exact absurd ⟨o, by rw [hsplit]; simp, equalFold_trans U htrans _ _ _ ho hn⟩ hex
        have hall : ∀ p ∈ (a.AddOption cmd (some f)).1.Options,
            EqualFold U p.Cmd name = false := by
          intro p hp
          rw [hopts] at hp
          rcases List.mem_append.mp hp with hp | hp
          · cases hpn : EqualFold U p.Cmd name with
            | false => rfl
            | true => exact absurd ⟨p, hp, hpn⟩ hex
          · rw [List.mem_singleton.mp hp]
            exact hnew
        rw [run_eq_of_no_match U _ name args₂ w₂ hall] at hc
        simp at hc

/-- C19, witness: on the empty registry, `AddOption("hello", f)` and then `Run("HELLO", 7)`
    calls `f` once with the argument and returns its nil; on the registry with `greet`
    and `GREET`, after `AddOption("Greet", f)` no call of `Run` reaches the third entry. -/
theorem addOption_then_run_witness :
    (∀ r s t, foldEq dotlessAndKelvin r s = true → foldEq dotlessAndKelvin s t = true →
      foldEq dotlessAndKelvin r t = true) ∧
    str "hello" ≠ [] ∧ EqualFold dotlessAndKelvin (str "hello") (str "HELLO") = true ∧
    (∀ o ∈ emptyApp.Options, EqualFold dotlessAndKelvin o.Cmd (str "hello") = false) ∧
    (emptyApp.AddOption (str "hello") (some countCalls)).1.Run dotlessAndKelvin
        (str "HELLO") [7] 0 =
      ⟨(emptyApp.AddOption (str "hello") (some countCalls)).1, 1, [(0, [7])], .value none⟩ ∧
    (∃ o ∈ greetApp.Options, EqualFold dotlessAndKelvin o.Cmd (str "Greet") = true) ∧
    (∀ (name : GoString) (args₂ : List Nat) (w₂ : Nat),
      ∀ c ∈ ((greetApp.AddOption (str "Greet") (some countCalls)).1.Run dotlessAndKelvin
          name args₂ w₂).calls, c.1 < 2) := by
  have hnone : ∀ o ∈ emptyApp.Options,
      EqualFold dotlessAndKelvin o.Cmd (str "hello") = false := by
    intro o ho
    exact absurd ho (List.not_mem_nil o)
  have hsome : ∃ o ∈ greetApp.Options,
      EqualFold dotlessAndKelvin o.Cmd (str "Greet") = true :=
    ⟨{ Cmd := str "greet", Description := str "says hello", Func := some countCalls },
      by simp [greetApp], by decide⟩
  refine ⟨foldEq_dotless_trans, by decide, by decide, hnone, ?_, hsome, ?_⟩
  · exact (addOption_then_run dotlessAndKelvin foldEq_dotless_trans emptyApp (str "hello")
      countCalls (str "HELLO") [7] 0 (by decide) (by decide)).2.2.1 hnone
  · exact ((addOption_then_run dotlessAndKelvin foldEq_dotless_trans greetApp (str "Greet")
      countCalls (str "Greet") [] 0 (by decide) (by decide)).2.2.2 hsome).2

end Cli
